import Mathlib

/-!
Verification development for the HelloAgent backend: a shallow embedding of
the streaming tool-calling turn executor (`function_call_processor.py`), the
task scheduler of the planning agent (`planning_agent.py`), the memory
manager (`memory.py`) and the tool registry (`registry.py`), together with
theorems about the behaviour of these components.

Conventions of the embedding:
- Python strings that the source tests for truthiness are modelled as `String`
  with `""` playing the role of a falsy/absent value.
- Python dicts that the source iterates over are modelled as association
  lists in insertion order (CPython dicts preserve insertion order).
- `list.sort(key=...)` is a stable sort; it is modelled by a stable insertion
  sort parametrised by a boolean total preorder.
- Timestamps (ISO strings compared lexicographically in the source, which
  orders them chronologically) are modelled as natural numbers.
-/

namespace HelloAgent

/-! ## Tool-call fragments and their accumulation
    (`FunctionCallProcessor._llm_iteration`, lines 183-197) -/

/-- One entry of `delta.tool_calls` in a streamed chunk.  A `""` field models
an absent / falsy value, mirroring the `if tool_call.function.name:` and
`if tool_call.function.arguments:` truthiness checks of the source. -/
structure Frag where
  index : Nat
  id : String
  ctype : String
  name : String
  arguments : String
deriving DecidableEq, Repr

/-- The accumulated per-index record stored in `tool_calls_dict`
(the `ToolCallRequest` of the data model). -/
structure ToolCallRequest where
  id : String
  ctype : String
  name : String
  arguments : String
deriving DecidableEq, Repr

/-- The two field updates of the source: a non-empty name fragment
overwrites `name` (`tool_calls_dict[index]["function"]["name"] = ...`),
a non-empty arguments fragment is appended to `arguments`
(`... ["arguments"] += ...`). -/
def apply_frag (e : ToolCallRequest) (f : Frag) : ToolCallRequest :=
  let e1 := if f.name ≠ "" then { e with name := f.name } else e
  if f.arguments ≠ "" then { e1 with arguments := e1.arguments ++ f.arguments } else e1

/-- The fresh entry created when an index is first seen:
`{"id": tool_call.id, "type": tool_call.type or "function",
  "function": {"name": "", "arguments": ""}}`. -/
def init_entry (f : Frag) : ToolCallRequest :=
  ⟨f.id, if f.ctype ≠ "" then f.ctype else "function", "", ""⟩

/-- Processing one fragment against `tool_calls_dict`, kept as an association
list in key-insertion order (as `list(dict.values())` later relies on). -/
def update_dict : List (Nat × ToolCallRequest) → Frag → List (Nat × ToolCallRequest)
  | [], f => [(f.index, apply_frag (init_entry f) f)]
  | (i, e) :: rest, f =>
    if i = f.index then (i, apply_frag e f) :: rest
    else (i, e) :: update_dict rest f

/-- Accumulating a whole arrival-ordered sequence of fragments. -/
def build_dict (frags : List Frag) : List (Nat × ToolCallRequest) :=
  frags.foldl update_dict []

/-- The effect of one fragment on the entry of its own index. -/
def accum_step (o : Option ToolCallRequest) (f : Frag) : ToolCallRequest :=
  match o with
  | none => apply_frag (init_entry f) f
  | some e => apply_frag e f

/-- Last non-empty string of a list (and `""` when there is none): the net
effect of repeated overwriting by non-empty fragments. -/
def last_nonempty (l : List String) : String :=
  l.foldl (fun acc s => if s ≠ "" then s else acc) ""

/-! ## Stable sorting
    Python `list.sort(key=...)` is stable.  It is modelled by a stable
    insertion sort over a boolean total preorder `le`: an element is inserted
    after every already-placed element whose key is less than or equal. -/

/-- Insert `x` after all elements `y` with `le y x` (stable insertion). -/
def stable_insert (le : α → α → Bool) (x : α) : List α → List α
  | [] => [x]
  | y :: ys => if le y x then y :: stable_insert le x ys else x :: y :: ys

/-- Stable sort by repeated insertion, processing the list left to right. -/
def stable_sort (le : α → α → Bool) (l : List α) : List α :=
  l.foldl (fun acc x => stable_insert le x acc) []

/-! ## Task scheduler (`planning_agent.py`: `TaskManager`) -/

inductive TaskStatus where
  | pending
  | in_progress
  | completed
  | failed
  | blocked
deriving DecidableEq, Repr

inductive TaskPriority where
  | low
  | medium
  | high
  | critical
deriving DecidableEq, Repr

/-- The `Task` dataclass. -/
structure Task where
  id : String
  title : String
  description : String
  status : TaskStatus
  priority : TaskPriority
  dependencies : List String
  assigned_agent : Option String
  result : Option String
  error : Option String
deriving DecidableEq, Repr

/-- `TaskManager.tasks` is a dict id → Task in insertion order; modelled as a
list of tasks.  `self.tasks.get(dep_id)` becomes a first-match lookup. -/
def find_task (ts : List Task) (tid : String) : Option Task :=
  ts.find? (fun t => t.id == tid)

/-- The `priority_order` dict of `get_executable_tasks`
(critical 0 < high 1 < medium 2 < low 3; sorted ascending = priority descending). -/
def priority_order : TaskPriority → Nat
  | .critical => 0
  | .high => 1
  | .medium => 2
  | .low => 3

/-- `dependencies_met`: every dependency id maps to an existing task whose
status is COMPLETED (`self.tasks.get(dep_id) and ... == COMPLETED`). -/
def dependencies_met (ts : List Task) (t : Task) : Bool :=
  t.dependencies.all fun dep =>
    match find_task ts dep with
    | some d => d.status == .completed
    | none => false

/-- Boolean preorder used by `executable.sort(key=...)`. -/
def task_le (a b : Task) : Bool :=
  priority_order a.priority ≤ priority_order b.priority

/-- `TaskManager.get_executable_tasks`: PENDING tasks with all dependencies
completed, stably sorted by priority order. -/
def get_executable_tasks (ts : List Task) : List Task :=
  stable_sort task_le (ts.filter fun t => t.status == .pending && dependencies_met ts t)

/-- `TaskManager.update_task_status`: sets the status of the task with the
given id; attaches `result` / `error` only when truthy (non-`None`,
non-empty).  Unknown ids are a no-op. -/
def update_task_status (ts : List Task) (tid : String) (st : TaskStatus)
    (result error : Option String) : List Task :=
  ts.map fun t =>
    if t.id == tid then
      { t with
        status := st
        result := match result with
          | some r => if r ≠ "" then some r else t.result
          | none => t.result
        error := match error with
          | some e => if e ≠ "" then some e else t.error
          | none => t.error }
    else t

/-! ## Memory manager (`memory.py`: `MemoryManager`) -/

inductive MemoryType where
  | short_term
  | long_term
  | working
deriving DecidableEq, Repr

inductive MemoryImportance where
  | low
  | medium
  | high
  | critical
deriving DecidableEq, Repr

/-- The `Memory` dataclass (the opaque `metadata` map is omitted; timestamps
are naturals, ordered as the ISO strings of the source are). -/
structure Memory where
  id : String
  content : String
  memory_type : MemoryType
  importance : MemoryImportance
  timestamp : Nat
  tags : List String
deriving DecidableEq, Repr

/-- The `importance_order` dict of `_cleanup_old_memories`. -/
def importance_order : MemoryImportance → Nat
  | .low => 0
  | .medium => 1
  | .high => 2
  | .critical => 3

/-- `MemoryManager.get_memories_by_type`. -/
def get_memories_by_type (ms : List Memory) (ty : MemoryType) : List Memory :=
  ms.filter fun m => m.memory_type == ty

/-- Sort key of the short-term cleanup: ascending timestamp. -/
def mem_le_ts (a b : Memory) : Bool :=
  a.timestamp ≤ b.timestamp

/-- Sort key of the long-term cleanup: ascending lexicographic
(importance_order, timestamp), the Python tuple order of
`(importance_order[m.importance], m.timestamp)`. -/
def mem_le_imp_ts (a b : Memory) : Bool :=
  decide (importance_order a.importance < importance_order b.importance ∨
    (importance_order a.importance = importance_order b.importance ∧
      a.timestamp ≤ b.timestamp))

/-- `del self.memories[memory.id]` for each listed id: the store keeps every
memory whose id is not listed, in order. -/
def delete_ids (ms : List Memory) (ids : List String) : List Memory :=
  ms.filter fun m => !(ids.contains m.id)

/-- First phase of `MemoryManager._cleanup_old_memories`: sort the
short-term memories by timestamp and delete the oldest ones beyond
`max_short`. -/
def cleanup_short (max_short : Nat) (ms : List Memory) : List Memory :=
  let short := get_memories_by_type ms .short_term
  if short.length > max_short then
    delete_ids ms
      (((stable_sort mem_le_ts short).take (short.length - max_short)).map Memory.id)
  else ms

/-- Second phase of `MemoryManager._cleanup_old_memories`: sort the
long-term memories by (importance, timestamp) and delete the first ones
beyond `max_long`. -/
def cleanup_long (max_long : Nat) (ms : List Memory) : List Memory :=
  let long := get_memories_by_type ms .long_term
  if long.length > max_long then
    delete_ids ms
      (((stable_sort mem_le_imp_ts long).take (long.length - max_long)).map Memory.id)
  else ms

/-- `MemoryManager._cleanup_old_memories`: the short-term phase followed by
the long-term phase on the updated store. -/
def cleanup_old_memories (max_short max_long : Nat) (ms : List Memory) : List Memory :=
  cleanup_long max_long (cleanup_short max_short ms)

/-- `MemoryManager.add_memory` for a record with a fresh id: insert, then
trigger the cleanup.  (On an existing id the dict assignment of the source
would replace the record instead; the theorems below work with distinct ids.) -/
def add_memory (max_short max_long : Nat) (ms : List Memory) (m : Memory) : List Memory :=
  cleanup_old_memories max_short max_long (ms ++ [m])

/-! ## Tool registry (`registry.py`: `ToolRegistry.execute_tool`) -/

/-- Outcome of running a registered tool body `await tool.execute(**arguments)`:
a string result, a `TypeError` (argument/signature mismatch, including a
non-mapping argument object), or any other exception. -/
inductive ToolOutcome where
  | ok (result : String)
  | type_error (msg : String)
  | exception (msg : String)
deriving DecidableEq, Repr

/-- `ToolRegistry.execute_tool`.  `lookup` models `self._tools.get(tool_name)`,
`parse` models `json.loads(arguments_str)` (`Except.error e` is a
`JSONDecodeError` with message `e`); `A` is the type of parsed argument
objects.  The progress callback is `None` (its default). -/
def execute_tool (lookup : String → Option (A → ToolOutcome))
    (parse : String → Except String A) (tool_name arguments_str : String) : String :=
  match lookup tool_name with
  | none => "错误：未知工具 " ++ tool_name
  | some tool =>
    match parse arguments_str with
    | .error e =>
      "错误：参数必须是有效的 JSON 格式。\n输入: " ++ arguments_str ++ "\n错误: " ++ e
    | .ok arguments =>
      match tool arguments with
      | .ok result => result
      | .type_error m => "错误：参数不匹配 - " ++ m
      | .exception m => "错误：工具执行失败 - " ++ m

/-! ## Output channel events (WebSocket `send_json` payloads) -/

/-- The tagged events the processors send over the channel.  The constructor
names are the `"type"` strings of the payloads. -/
inductive Event where
  | assistant_start (message_id : Nat)
  | assistant_chunk (message_id : Nat) (content : String)
  | assistant_end (message_id : Nat)
  | tool_calls_start (tools : List (String × String))
  | tool_call (tool_name : String) (tool_result : String)
  | error_event (message : String)
  | todo_update (task_id : String) (status : String)
deriving DecidableEq, Repr

/-! ## Messages of the session history (OpenAI chat format) -/

/-- One history entry.  `assistant content []` is a plain assistant message
(the source omits the `tool_calls` key); a non-empty `tool_calls` list is an
assistant message requesting those calls. -/
inductive Message where
  | system (content : String)
  | user (content : String)
  | assistant (content : Option String) (tool_calls : List ToolCallRequest)
  | tool (tool_call_id : String) (name : String) (content : String)
deriving DecidableEq, Repr

/-! ## Task delegation (`planning_agent.py`: `_delegate_to_agent`,
    `_execute_single_task`) -/

/-- What one call `agent.run(wrapped_ws, session_id, input, history)` does:
the events it sends through the output-capturing wrapper, either running to
completion or raising with a message after sending some events. -/
inductive AgentOutcome where
  | ok (events : List Event)
  | raised (events : List Event) (msg : String)
deriving DecidableEq, Repr

/-- An agent is determined by its input text and starting history. -/
def AgentFun : Type :=
  String → List Message → AgentOutcome

/-- The default executor used when a task has no (truthy) assigned agent. -/
def default_executor : String := "通用助理"

/-- The agent name `_delegate_to_agent` resolves for a task
(`task.assigned_agent`, falling back on the default when falsy). -/
def resolve_agent_name (task : Task) : String :=
  match task.assigned_agent with
  | none => default_executor
  | some s => if s = "" then default_executor else s

/-- The contents captured by `OutputCapturingWebSocket`: the `content` of
every `assistant_chunk` event, in order. -/
def capture_chunks (evs : List Event) : List String :=
  evs.filterMap fun e =>
    match e with
    | .assistant_chunk _ c => some c
    | _ => none

/-- `PlanningAgent._delegate_to_agent`: resolve the agent, run it on the
task's description against a fresh empty history (`task_messages = []`),
forward its events, and return the concatenated captured chunks (or the
placeholder `"任务已完成"` when nothing was captured).  A missing agent
raises `ValueError`; an exception from the delegate propagates.  The
returned pair is (forwarded events, result-or-exception). -/
def delegate_to_agent (agents : String → Option AgentFun) (task : Task) :
    List Event × Except String String :=
  let agent_name := resolve_agent_name task
  match agents agent_name with
  | none =>
    ([], .error ("无法找到Agent '" ++ agent_name ++ "' 来执行任务 '" ++ task.title ++ "'"))
  | some agent =>
    match agent task.description [] with
    | .ok evs =>
      let result := String.join (capture_chunks evs)
      (evs, .ok (if result = "" then "任务已完成" else result))
    | .raised evs m => (evs, .error m)

/-- `PlanningAgent._execute_single_task`: mark in_progress, delegate, then
mark completed with the captured result, or failed with the exception
message.  Returns the updated task list and the events sent. -/
def execute_single_task (agents : String → Option AgentFun) (ts : List Task)
    (task : Task) : List Task × List Event :=
  let ts1 := update_task_status ts task.id .in_progress none none
  match delegate_to_agent agents task with
  | (devs, .ok result) =>
    (update_task_status ts1 task.id .completed (some result) none,
      .todo_update task.id "in_progress" :: devs ++ [.todo_update task.id "completed"])
  | (devs, .error m) =>
    (update_task_status ts1 task.id .failed none (some m),
      .todo_update task.id "in_progress" :: devs ++ [.todo_update task.id "failed"])

/-- Default `max_iterations` of `PlanningAgent.__init__`. -/
def planning_default_max_iterations : Nat := 20

/-- `PlanningAgent._execute_tasks_sequentially` with the cancel flag never
set: as long as the iteration budget lasts, take the first executable task
and run it; stop when none is executable (whether because all are done or
because the remaining ones are blocked).  Returns the final task list, the
events sent and the number of tasks executed. -/
def execute_tasks_sequentially (agents : String → Option AgentFun) :
    Nat → List Task → List Task × List Event × Nat
  | 0, ts => (ts, [], 0)
  | fuel + 1, ts =>
    match get_executable_tasks ts with
    | [] => (ts, [], 0)
    | task :: _ =>
      let r1 := execute_single_task agents ts task
      let r2 := execute_tasks_sequentially agents fuel r1.1
      (r2.1, r1.2 ++ r2.2.1, r2.2.2 + 1)

/-! ## Streaming turn executor
    (`function_call_processor.py`: `FunctionCallProcessor.process_streaming`,
    `_llm_iteration`, `_execute_tool_calls`)

    The cooperative cancel flag lives in the session store and may be set by
    the environment at any time; the executor only reads it at three kinds of
    program points.  Each kind of read is modelled by its own boolean
    function of the program point, which covers every environment behaviour. -/

/-- One streamed chunk: `delta.tool_calls` (empty list for a falsy value) and
`delta.content` (`""` for a falsy value). -/
structure Delta where
  tool_calls : List Frag
  content : String
deriving DecidableEq, Repr

/-- One LLM round-trip as observed by the executor: either
`chat.completions.create` raises, or it yields a stream of chunks followed by
an optional exception raised while iterating the stream. -/
inductive LLMCall where
  | fails (msg : String)
  | stream (deltas : List Delta) (stream_error : Option String)
deriving DecidableEq, Repr

/-- The values returned by the executor's reads of the session cancel flag:
`pre i` at the check before iteration `i`, `during_stream i j` at the check
before processing chunk `j` of iteration `i`, `before_tool i j` at the check
before executing tool call `j` of iteration `i`. -/
structure CancelReads where
  pre : Nat → Bool
  during_stream : Nat → Nat → Bool
  before_tool : Nat → Nat → Bool

/-- The reads of a run during which the flag is never observed set. -/
def no_cancel : CancelReads :=
  ⟨fun _ => false, fun _ _ => false, fun _ _ => false⟩

/-- Session-store fields touched by the turn (`SessionManager`). -/
structure SessionState where
  cancel_flag : Bool
  current_message_id : Option Nat
deriving DecidableEq, Repr

def set_cancel_flag (s : SessionState) (b : Bool) : SessionState :=
  { s with cancel_flag := b }

def remove_current_message (s : SessionState) : SessionState :=
  { s with current_message_id := none }

/-- Accumulator of the chunk-consumption loop of `_llm_iteration`. -/
structure StreamAcc where
  tool_calls_dict : List (Nat × ToolCallRequest)
  content_buffer : String
  events : List Event
  cancelled : Bool
deriving Repr

/-- The `async for chunk in response` loop: before processing chunk `j` the
cancel flag is read (`flags j`); if set, consumption stops.  Otherwise the
chunk's tool-call fragments are folded into `tool_calls_dict` and non-empty
content is buffered and immediately forwarded as an `assistant_chunk`. -/
def consume_chunks (flags : Nat → Bool) (mid : Nat) :
    List Delta → Nat → StreamAcc → StreamAcc
  | [], _, acc => acc
  | d :: rest, j, acc =>
    if flags j then { acc with cancelled := true }
    else
      let acc1 := { acc with tool_calls_dict := d.tool_calls.foldl update_dict acc.tool_calls_dict }
      let acc2 :=
        if d.content ≠ "" then
          { acc1 with
            content_buffer := acc1.content_buffer ++ d.content
            events := acc1.events ++ [.assistant_chunk mid d.content] }
        else acc1
      consume_chunks flags mid rest (j + 1) acc2

/-- `_execute_tool_calls`'s per-call loop: before each call the cancel flag
is read; if set the whole method returns at once.  Otherwise the tool is
executed, a `tool_call` event is sent and a `tool` message is appended. -/
def execute_tool_calls (toolExec : String → String → String) (flags : Nat → Bool) :
    List ToolCallRequest → Nat → List Message → List Event → List Message × List Event
  | [], _, msgs, evs => (msgs, evs)
  | tc :: rest, j, msgs, evs =>
    if flags j then (msgs, evs)
    else
      let r := toolExec tc.name tc.arguments
      execute_tool_calls toolExec flags rest (j + 1)
        (msgs ++ [.tool tc.id tc.name r])
        (evs ++ [.tool_call tc.name r])

/-- All tool-call fragments of a chunk list, in arrival order. -/
def delta_frags : List Delta → List Frag
  | [] => []
  | d :: rest => d.tool_calls ++ delta_frags rest

/-- The `assistant_chunk` events emitted while consuming a chunk list with
no cancellation. -/
def chunk_events (mid : Nat) : List Delta → List Event
  | [] => []
  | d :: rest =>
    (if d.content ≠ "" then [Event.assistant_chunk mid d.content] else []) ++
      chunk_events mid rest

/-- Whether a response carries any tool-call fragment (which is exactly when
`tool_calls_dict` ends up non-empty). -/
def stream_has_tool_calls : LLMCall → Bool
  | .fails _ => false
  | .stream ds _ => !(delta_frags ds).isEmpty

/-- Result of `_llm_iteration` after a successful `create`: a normal return
(updated history, events sent, the has-tool-calls boolean), or an exception
raised while iterating the stream (events already sent are kept, the history
is untouched). -/
inductive IterResult where
  | ret (msgs : List Message) (events : List Event) (has_tool_calls : Bool)
  | raised (events : List Event) (msg : String)
deriving Repr

/-- `_llm_iteration` after `create` succeeded with chunk list `deltas` (and
`stream_error` raised at the stream's end, if any): send `assistant_start`,
consume the chunks, then either return early on mid-stream cancellation
(nothing appended), propagate a stream exception, execute accumulated tool
calls (appending the assistant message and one tool message per executed
call), or append the final plain assistant message. -/
def llm_iteration (toolExec : String → String → String) (deltas : List Delta)
    (stream_error : Option String) (sflags tflags : Nat → Bool)
    (msgs : List Message) (mid : Nat) : IterResult :=
  let acc := consume_chunks sflags mid deltas 0 ⟨[], "", [.assistant_start mid], false⟩
  if acc.cancelled then .ret msgs acc.events false
  else
    match stream_error with
    | some m => .raised acc.events m
    | none =>
      let tool_calls := acc.tool_calls_dict.map Prod.snd
      match tool_calls with
      | [] => .ret (msgs ++ [.assistant (some acc.content_buffer) []]) acc.events false
      | _ :: _ =>
        let msgs1 := msgs ++
          [.assistant (if acc.content_buffer ≠ "" then some acc.content_buffer else none) tool_calls]
        let evs1 := acc.events ++ [.assistant_end mid,
          .tool_calls_start (tool_calls.map fun tc => (tc.name, tc.arguments))]
        let r := execute_tool_calls toolExec tflags tool_calls 0 msgs1 evs1
        .ret r.1 r.2 true

/-- Terminal outcome of one turn. -/
inductive Outcome where
  | completed
  | cancelled
  | errored (msg : String)
deriving DecidableEq, Repr

/-- State threaded through the iteration loop of `process_streaming`. -/
structure LoopState where
  msgs : List Message
  events : List Event
  mid : Nat
  next_mid : Nat
  llm_calls : Nat
deriving Repr

/-- When `iteration > 0`, a fresh message id is minted and recorded
(`message_id = f"msg_..."; set_current_message`). -/
def advance_mid (idx : Nat) (st : LoopState) : LoopState :=
  if idx > 0 then { st with mid := st.next_mid, next_mid := st.next_mid + 1 } else st

/-- The `for iteration in range(self.max_iterations)` loop of
`process_streaming` together with its epilogue and exception handler:
check the cancel flag before each iteration (returning the cancelled outcome
with a final `assistant_end`), mint a new message id when `iteration > 0`,
perform one LLM round-trip, loop while the iteration reported tool calls,
and send the final `assistant_end` when the loop ends by a tool-call-free
response or by exhausting the budget.  An exception from the LLM call or
stream is converted to an `error` event (and no `assistant_end`). -/
def process_iters (toolExec : String → String → String) (streams : Nat → LLMCall)
    (co : CancelReads) : Nat → Nat → LoopState → LoopState × Outcome
  | 0, _, st => ({ st with events := st.events ++ [.assistant_end st.mid] }, .completed)
  | fuel + 1, idx, st =>
    if co.pre idx then
      ({ st with events := st.events ++ [.assistant_end st.mid] }, .cancelled)
    else
      let st1 := advance_mid idx st
      match streams idx with
      | .fails m =>
        ({ st1 with events := st1.events ++ [.error_event ("处理消息时出错: " ++ m)] }, .errored m)
      | .stream deltas stream_error =>
        let st2 := { st1 with llm_calls := st1.llm_calls + 1 }
        match llm_iteration toolExec deltas stream_error (co.during_stream idx)
            (co.before_tool idx) st2.msgs st2.mid with
        | .raised evs m =>
          ({ st2 with events := st2.events ++ evs ++ [.error_event ("处理消息时出错: " ++ m)] },
            .errored m)
        | .ret msgs evs has_tool_calls =>
          let st3 := { st2 with msgs := msgs, events := st2.events ++ evs }
          if has_tool_calls then process_iters toolExec streams co fuel (idx + 1) st3
          else ({ st3 with events := st3.events ++ [.assistant_end st3.mid] }, .completed)

/-- The full result of one turn. -/
structure TurnResult where
  messages : List Message
  events : List Event
  llm_calls : Nat
  outcome : Outcome
  session : SessionState
  final_mid : Nat
deriving Repr

/-- `FunctionCallProcessor.process_streaming`: append the user message, run
the iteration loop, and in the `finally` block clear the cancel flag and the
current message id whatever the environment (`env_flag` is whatever value
the environment last wrote to the flag). -/
def process_streaming (toolExec : String → String → String) (streams : Nat → LLMCall)
    (co : CancelReads) (env_flag : Bool) (max_iterations : Nat)
    (msgs0 : List Message) (user_input : String) : TurnResult :=
  let r := process_iters toolExec streams co max_iterations 0
    ⟨msgs0 ++ [.user user_input], [], 0, 1, 0⟩
  { messages := r.1.msgs
    events := r.1.events
    llm_calls := r.1.llm_calls
    outcome := r.2
    session := remove_current_message (set_cancel_flag ⟨env_flag, some r.1.mid⟩ false)
    final_mid := r.1.mid }

/-! ## History well-formedness (the invariant of claim P5)

    An `assistant` message carrying tool-call requests must be immediately
    followed by exactly one `tool` message per request, in request order,
    matched by tool-call id — with no `user`/`assistant` message interleaved.
    Checked by a left fold whose state is the list of still-awaited requests. -/

/-- One automaton step: while requests are pending only the matching `tool`
message is accepted; otherwise an assistant message loads its requests. -/
def wf_step : List ToolCallRequest × Bool → Message → List ToolCallRequest × Bool
  | (tc :: tcs, ok), .tool cid name _ =>
    if cid == tc.id && name == tc.name then (tcs, ok) else ([], false)
  | (_ :: _, _), _ => ([], false)
  | ([], ok), .assistant _ tcs => (tcs, ok)
  | ([], ok), _ => ([], ok)

/-- A history is well-formed when the automaton accepts it with no request
left pending. -/
def check_wf (msgs : List Message) : Bool :=
  let s := msgs.foldl wf_step ([], true)
  s.2 && s.1.isEmpty

/-! ## Concrete instances used by witnesses and counterexamples -/

/-- A pending, dependency-free task with a given id and priority. -/
def mk_task (tid : String) (p : TaskPriority) : Task :=
  ⟨tid, tid, tid, .pending, p, [], none, none, none⟩

/-- Four ready tasks added in priority order [low, critical, medium, high]. -/
def example_tasks : List Task :=
  [mk_task "t1" .low, mk_task "t2" .critical, mk_task "t3" .medium, mk_task "t4" .high]

/-- A long-term memory with a given id, importance and timestamp. -/
def mk_long_memory (mid : String) (imp : MemoryImportance) (ts : Nat) : Memory :=
  ⟨mid, mid, .long_term, imp, ts, []⟩

/-- A tool runner that always succeeds with `"ok"`. -/
def const_tool_runner : String → String → String := fun _ _ => "ok"

/-- A single-chunk response requesting one tool call at index 0. -/
def one_tool_call_stream : Nat → LLMCall := fun _ =>
  .stream [⟨[⟨0, "call_1", "function", "get_time", "x"⟩], ""⟩] none

/-- Reads of a run whose cancel flag is set between the end of iteration 0's
delta stream and the first tool execution (and stays set, the flag being
latched). -/
def cancel_before_first_tool : CancelReads :=
  ⟨fun i => decide (1 ≤ i), fun _ _ => false, fun _ _ => true⟩

/-- An agent registry whose only agent, the default executor, completes at
once without streaming any text. -/
def silent_agents : String → Option AgentFun := fun n =>
  if n = default_executor then some (fun _ _ => .ok []) else none

/-- An agent registry whose only agent, the default executor, streams the
two chunks "done" and "!". -/
def chatty_agents : String → Option AgentFun := fun n =>
  if n = default_executor then
    some (fun _ _ => .ok [.assistant_chunk 0 "done", .assistant_chunk 0 "!"])
  else none

/-- An event that signals neither an error nor a failed/blocked task. -/
def benign_event : Event → Bool
  | .error_event _ => false
  | .todo_update _ s => !(s == "failed" || s == "blocked")
  | _ => true

/-- A one-tool registry lookup for the registry theorems: `"echo"` returns
`"hi"`. -/
def demo_lookup : String → Option (Unit → ToolOutcome) := fun n =>
  if n = "echo" then some (fun _ => .ok "hi") else none

/-- A JSON argument parser accepting exactly the text `"1"`. -/
def demo_parse : String → Except String Unit := fun s =>
  if s = "1" then .ok () else .error "bad json"

/-! # Theorems -/

/-! ## Lemmas on tool-call fragment accumulation -/

theorem string_join_cons (s : String) (l : List String) :
    String.join (s :: l) = s ++ String.join l := by
  apply String.ext
  simp

theorem apply_frag_id (e : ToolCallRequest) (f : Frag) : (apply_frag e f).id = e.id := by
  simp only [apply_frag]
  split <;> split <;> rfl

theorem apply_frag_name (e : ToolCallRequest) (f : Frag) :
    (apply_frag e f).name = if f.name ≠ "" then f.name else e.name := by
  simp only [apply_frag]
  split <;> split <;> simp_all

theorem apply_frag_arguments (e : ToolCallRequest) (f : Frag) :
    (apply_frag e f).arguments = e.arguments ++ f.arguments := by
  simp only [apply_frag]
  split <;> split <;> simp_all [String.append_empty]

theorem lookup_update_dict (d : List (Nat × ToolCallRequest)) (f : Frag) (i : Nat) :
    (update_dict d f).lookup i =
      if f.index = i then some (accum_step (d.lookup i) f) else d.lookup i := by
  induction d with
  | nil =>
    by_cases h : f.index = i
    · subst h
      simp [update_dict, List.lookup, accum_step]
    · have h2 : (i == f.index) = false := beq_eq_false_iff_ne.mpr fun hh => h hh.symm
      simp [update_dict, List.lookup, h2, h]
  | cons p rest ih =>
    obtain ⟨k, e⟩ := p
    simp only [update_dict]
    by_cases hk : k = f.index
    · subst hk
      rw [if_pos rfl]
      by_cases hi : f.index = i
      · subst hi
        simp [List.lookup, accum_step]
      · have h2 : (i == f.index) = false := beq_eq_false_iff_ne.mpr fun hh => hi hh.symm
        simp [List.lookup, h2, hi]
    · rw [if_neg hk]
      by_cases hi : k = i
      · subst hi
        have hfi : ¬ f.index = k := fun hh => hk hh.symm
        simp [List.lookup, hfi]
      · have h2 : (i == k) = false := beq_eq_false_iff_ne.mpr fun hh => hi hh.symm
        simp [List.lookup, h2, ih]

theorem lookup_foldl_update (frags : List Frag) (d : List (Nat × ToolCallRequest)) (i : Nat) :
    (frags.foldl update_dict d).lookup i =
      frags.foldl (fun o f => if f.index = i then some (accum_step o f) else o) (d.lookup i) := by
  induction frags generalizing d with
  | nil => rfl
  | cons f fs ih =>
    simp only [List.foldl]
    rw [ih, lookup_update_dict]

theorem foldl_cond_filter (frags : List Frag) (i : Nat) (o : Option ToolCallRequest) :
    frags.foldl (fun o f => if f.index = i then some (accum_step o f) else o) o =
      (frags.filter fun f => f.index == i).foldl (fun o f => some (accum_step o f)) o := by
  induction frags generalizing o with
  | nil => rfl
  | cons f fs ih =>
    by_cases h : f.index = i
    · simp [List.filter_cons, h, ih]
    · simp [List.filter_cons, h, ih]

theorem foldl_accum_some (gs : List Frag) (e : ToolCallRequest) :
    gs.foldl (fun o f => some (accum_step o f)) (some e) = some (gs.foldl apply_frag e) := by
  induction gs generalizing e with
  | nil => rfl
  | cons g gs ih => simpa [accum_step] using ih (apply_frag e g)

theorem foldl_apply_frag_id (gs : List Frag) (e : ToolCallRequest) :
    (gs.foldl apply_frag e).id = e.id := by
  induction gs generalizing e with
  | nil => rfl
  | cons g gs ih => simpa [apply_frag_id] using ih (apply_frag e g)

theorem foldl_apply_frag_name (gs : List Frag) (e : ToolCallRequest) :
    (gs.foldl apply_frag e).name =
      (gs.map Frag.name).foldl (fun a s => if s ≠ "" then s else a) e.name := by
  induction gs generalizing e with
  | nil => rfl
  | cons g gs ih =>
    simp only [List.foldl, List.map]
    rw [ih, apply_frag_name]

theorem foldl_apply_frag_arguments (gs : List Frag) (e : ToolCallRequest) :
    (gs.foldl apply_frag e).arguments =
      e.arguments ++ String.join (gs.map Frag.arguments) := by
  induction gs generalizing e with
  | nil => simp [String.join, String.append_empty]
  | cons g gs ih =>
    simp only [List.foldl, List.map]
    rw [ih, apply_frag_arguments, string_join_cons, String.append_assoc]

/-- C1 (amended): fragments sharing the same stream-supplied index are
accumulated into a single `ToolCallRequest` whose id is the first fragment's
id, whose arguments are the concatenation, in arrival order, of the argument
fragments, and whose name is the LAST non-empty name fragment (each
non-empty name fragment overwrites the name rather than being appended). -/
theorem tool_call_fragment_accumulation (frags : List Frag) (i : Nat) :
    (frags.filter (fun f => f.index == i) = [] → (build_dict frags).lookup i = none) ∧
    (∀ g gs, frags.filter (fun f => f.index == i) = g :: gs →
      ∃ e, (build_dict frags).lookup i = some e ∧
        e.id = g.id ∧
        e.name = last_nonempty ((g :: gs).map Frag.name) ∧
        e.arguments = String.join ((g :: gs).map Frag.arguments)) := by
  have key : (build_dict frags).lookup i =
      (frags.filter fun f => f.index == i).foldl (fun o f => some (accum_step o f)) none := by
    have h0 : (List.lookup i ([] : List (Nat × ToolCallRequest))) = none := rfl
    rw [build_dict, lookup_foldl_update, h0, foldl_cond_filter]
  constructor
  · intro h
    rw [key, h]
    rfl
  · intro g gs h
    rw [key, h]
    simp only [List.foldl]
    have hstep : accum_step none g = apply_frag (init_entry g) g := rfl
    rw [hstep, foldl_accum_some]
    refine ⟨_, rfl, ?_, ?_, ?_⟩
    · rw [foldl_apply_frag_id, apply_frag_id]
      rfl
    · rw [foldl_apply_frag_name, apply_frag_name]
      simp only [last_nonempty, List.map, List.foldl]
      rcases Decidable.em (g.name = "") with hg | hg <;> simp [hg, init_entry]
    · rw [foldl_apply_frag_arguments, apply_frag_arguments]
      have hinit : (init_entry g).arguments = "" := rfl
      rw [hinit, String.empty_append, List.map_cons, string_join_cons]

/-- Witness for C1: a two-fragment split at index 0 accumulates id from the
first fragment, the last non-empty name, and concatenated arguments. -/
theorem tool_call_fragment_accumulation_witness :
    ∃ e, (build_dict [⟨0, "c1", "function", "get_", "ab"⟩,
        ⟨0, "", "", "weather", "cd"⟩]).lookup 0 = some e ∧
      e.id = "c1" ∧
      e.name = last_nonempty ["get_", "weather"] ∧
      e.arguments = String.join ["ab", "cd"] :=
  (tool_call_fragment_accumulation
    [⟨0, "c1", "function", "get_", "ab"⟩, ⟨0, "", "", "weather", "cd"⟩] 0).2
    ⟨0, "c1", "function", "get_", "ab"⟩ [⟨0, "", "", "weather", "cd"⟩] rfl

/-- C1 counterexample: splitting the name `"get_weather"` into the fragments
`"get_"` then `"weather"` accumulates the name `"weather"`, not the
concatenation `"get_weather"` obtained when the call arrives in one
fragment — the claim's concatenation rule fails for the name field. -/
theorem tool_call_name_not_concatenated :
    ((build_dict [⟨0, "call1", "function", "get_", ""⟩,
        ⟨0, "", "", "weather", ""⟩]).lookup 0).map ToolCallRequest.name = some "weather" ∧
    ((build_dict [⟨0, "call1", "function", "get_weather", ""⟩]).lookup 0).map
        ToolCallRequest.name = some "get_weather" ∧
    ("weather" : String) ≠ "get_weather" := by
  refine ⟨rfl, rfl, by decide⟩

/-! ## Lemmas on the stable insertion sort -/

theorem stable_insert_perm (le : α → α → Bool) (x : α) (l : List α) :
    (stable_insert le x l).Perm (x :: l) := by
  induction l with
  | nil => exact List.Perm.refl _
  | cons y ys ih =>
    simp only [stable_insert]
    split
    · exact (ih.cons y).trans (List.Perm.swap x y ys)
    · exact List.Perm.refl _

theorem foldl_stable_insert_perm (le : α → α → Bool) (l acc : List α) :
    (l.foldl (fun a x => stable_insert le x a) acc).Perm (acc ++ l) := by
  induction l generalizing acc with
  | nil => simp
  | cons x xs ih =>
    simp only [List.foldl]
    refine (ih (stable_insert le x acc)).trans ?_
    refine (List.Perm.append_right xs (stable_insert_perm le x acc)).trans ?_
    exact List.perm_middle.symm

theorem stable_sort_perm (le : α → α → Bool) (l : List α) :
    (stable_sort le l).Perm l := by
  simpa using foldl_stable_insert_perm le l []

theorem mem_stable_sort (le : α → α → Bool) (l : List α) (a : α) :
    a ∈ stable_sort le l ↔ a ∈ l :=
  (stable_sort_perm le l).mem_iff

theorem stable_insert_pairwise (le : α → α → Bool)
    (htot : ∀ a b, le a b = true ∨ le b a = true)
    (htrans : ∀ a b c, le a b = true → le b c = true → le a c = true)
    (x : α) (l : List α) (h : l.Pairwise (fun a b => le a b = true)) :
    (stable_insert le x l).Pairwise (fun a b => le a b = true) := by
  induction l with
  | nil => exact List.pairwise_singleton _ _
  | cons y ys ih =>
    rcases List.pairwise_cons.mp h with ⟨hy, hys⟩
    simp only [stable_insert]
    split
    · rename_i hle
      refine List.pairwise_cons.mpr ⟨?_, ih hys⟩
      intro z hz
      rcases List.mem_cons.mp ((stable_insert_perm le x ys).mem_iff.mp hz) with rfl | hzys
      · exact hle
      · exact hy z hzys
    · rename_i hle
      have hxy : le x y = true := (htot x y).resolve_right (by simp_all)
      refine List.pairwise_cons.mpr ⟨?_, h⟩
      intro z hz
      rcases List.mem_cons.mp hz with rfl | hzys
      · exact hxy
      · exact htrans x y z hxy (hy z hzys)

theorem stable_sort_pairwise (le : α → α → Bool)
    (htot : ∀ a b, le a b = true ∨ le b a = true)
    (htrans : ∀ a b c, le a b = true → le b c = true → le a c = true)
    (l : List α) :
    (stable_sort le l).Pairwise (fun a b => le a b = true) := by
  suffices h : ∀ acc, acc.Pairwise (fun a b => le a b = true) →
      (l.foldl (fun a x => stable_insert le x a) acc).Pairwise (fun a b => le a b = true) by
    exact h [] (List.Pairwise.nil)
  induction l with
  | nil => intro acc hacc; exact hacc
  | cons x xs ih =>
    intro acc hacc
    exact ih (stable_insert le x acc) (stable_insert_pairwise le htot htrans x acc hacc)

theorem filter_stable_insert_neg (le : α → α → Bool) (p : α → Bool) (x : α) (l : List α)
    (hx : p x = false) :
    (stable_insert le x l).filter p = l.filter p := by
  induction l with
  | nil => simp [stable_insert, List.filter, hx]
  | cons y ys ih =>
    simp only [stable_insert]
    split
    · simp [List.filter_cons, ih]
    · simp [List.filter_cons, hx]

theorem filter_stable_insert_pos (le : α → α → Bool) (p : α → Bool)
    (htrans : ∀ a b c, le a b = true → le b c = true → le a c = true)
    (hcl : ∀ a b, p a = true → p b = true → le a b = true)
    (x : α) (l : List α) (hx : p x = true)
    (hsort : l.Pairwise (fun a b => le a b = true)) :
    (stable_insert le x l).filter p = l.filter p ++ [x] := by
  induction l with
  | nil => simp [stable_insert, List.filter, hx]
  | cons y ys ih =>
    rcases List.pairwise_cons.mp hsort with ⟨hy, hys⟩
    simp only [stable_insert]
    split
    · rw [List.filter_cons, List.filter_cons, ih hys]
      split <;> simp
    · rename_i hle
      have hle2 : ¬ le y x = true := by simp_all
      have hnone : ∀ z ∈ y :: ys, ¬ p z = true := by
        intro z hz hpz
        rcases List.mem_cons.mp hz with rfl | hzys
        · exact hle2 (hcl z x hpz hx)
        · exact hle2 (htrans y z x (hy z hzys) (hcl z x hpz hx))
      have hfil : (y :: ys).filter p = [] := List.filter_eq_nil_iff.mpr hnone
      simp [List.filter_cons, hx, hfil]

theorem filter_stable_sort (le : α → α → Bool) (p : α → Bool)
    (htot : ∀ a b, le a b = true ∨ le b a = true)
    (htrans : ∀ a b c, le a b = true → le b c = true → le a c = true)
    (hcl : ∀ a b, p a = true → p b = true → le a b = true)
    (l : List α) :
    (stable_sort le l).filter p = l.filter p := by
  suffices h : ∀ acc, acc.Pairwise (fun a b => le a b = true) →
      (l.foldl (fun a x => stable_insert le x a) acc).filter p =
        acc.filter p ++ l.filter p by
    simpa using h [] List.Pairwise.nil
  induction l with
  | nil => intro acc hacc; simp
  | cons x xs ih =>
    intro acc hacc
    simp only [List.foldl]
    rw [ih (stable_insert le x acc) (stable_insert_pairwise le htot htrans x acc hacc)]
    by_cases hx : p x = true
    · rw [filter_stable_insert_pos le p htrans hcl x acc hx hacc]
      simp [List.filter_cons, hx]
    · rw [filter_stable_insert_neg le p x acc (Bool.eq_false_iff.mpr hx)]
      simp [List.filter_cons, Bool.eq_false_iff.mpr hx]

theorem stable_insert_last (le : α → α → Bool) (x : α) (l : List α)
    (h : ∀ y ∈ l, le y x = true) :
    stable_insert le x l = l ++ [x] := by
  induction l with
  | nil => rfl
  | cons y ys ih =>
    simp only [stable_insert]
    rw [if_pos (h y (List.mem_cons_self y ys))]
    rw [ih fun z hz => h z (List.mem_cons_of_mem y hz)]
    rfl

theorem stable_sort_eq_self (le : α → α → Bool) (l : List α)
    (h : l.Pairwise (fun a b => le a b = true)) :
    stable_sort le l = l := by
  suffices hh : ∀ (l2 acc : List α),
      (acc ++ l2).Pairwise (fun a b => le a b = true) →
      l2.foldl (fun a x => stable_insert le x a) acc = acc ++ l2 by
    simpa using hh l [] (by simpa using h)
  intro l2
  induction l2 with
  | nil => intro acc hacc; simp
  | cons x xs ih =>
    intro acc hacc
    have hins : stable_insert le x acc = acc ++ [x] := by
      refine stable_insert_last le x acc ?_
      intro y hy
      rcases List.pairwise_append.mp hacc with ⟨_, _, hcross⟩
      exact hcross y hy x (List.mem_cons_self x xs)
    simp only [List.foldl]
    rw [hins, ih (acc ++ [x]) (by simpa using hacc)]
    simp

/-! ## Task readiness and priority ordering -/

theorem task_le_total (a b : Task) : task_le a b = true ∨ task_le b a = true := by
  simp only [task_le, decide_eq_true_eq]
  exact Nat.le_total _ _

theorem task_le_trans (a b c : Task) :
    task_le a b = true → task_le b c = true → task_le a c = true := by
  simp only [task_le, decide_eq_true_eq]
  exact Nat.le_trans

/-- C6: the ready-task query returns exactly the pending tasks whose every
dependency id maps to an existing completed task, sorted by priority
descending (critical before high before medium before low), preserving
insertion order among equal priorities; and the four ready tasks added with
priorities [low, critical, medium, high] come back ordered
[critical, high, medium, low]. -/
theorem ready_task_query_correct (ts : List Task) :
    (∀ t, t ∈ get_executable_tasks ts ↔
      t ∈ ts ∧ t.status = .pending ∧ dependencies_met ts t = true) ∧
    (get_executable_tasks ts).Pairwise
      (fun a b => priority_order a.priority ≤ priority_order b.priority) ∧
    (∀ p, (get_executable_tasks ts).filter (fun t => t.priority == p) =
      (ts.filter fun t => t.status == .pending && dependencies_met ts t).filter
        (fun t => t.priority == p)) ∧
    get_executable_tasks example_tasks =
      [mk_task "t2" .critical, mk_task "t4" .high, mk_task "t3" .medium, mk_task "t1" .low] := by
  refine ⟨?_, ?_, ?_, ?_⟩
  · intro t
    rw [get_executable_tasks, mem_stable_sort, List.mem_filter]
    simp [Bool.and_eq_true, beq_iff_eq]
  · have h := stable_sort_pairwise task_le task_le_total task_le_trans
      (ts.filter fun t => t.status == .pending && dependencies_met ts t)
    exact h.imp fun hab => by simpa [task_le, decide_eq_true_eq] using hab
  · intro p
    exact filter_stable_sort task_le (fun t => t.priority == p)
      task_le_total task_le_trans
      (fun a b ha hb => by
        simp only [beq_iff_eq] at ha hb
        simp [task_le, ha, hb])
      (ts.filter fun t => t.status == .pending && dependencies_met ts t)
  · decide

/-- Witness for C6: the query applied to the concrete four-task list. -/
theorem ready_task_query_correct_witness :
    get_executable_tasks example_tasks =
      [mk_task "t2" .critical, mk_task "t4" .high, mk_task "t3" .medium, mk_task "t1" .low] :=
  (ready_task_query_correct example_tasks).2.2.2

/-! ## Memory eviction -/

theorem mem_le_imp_ts_total (a b : Memory) :
    mem_le_imp_ts a b = true ∨ mem_le_imp_ts b a = true := by
  simp only [mem_le_imp_ts, decide_eq_true_eq]
  omega

theorem mem_le_imp_ts_trans (a b c : Memory) :
    mem_le_imp_ts a b = true → mem_le_imp_ts b c = true → mem_le_imp_ts a c = true := by
  simp only [mem_le_imp_ts, decide_eq_true_eq]
  omega

theorem nodup_ids_delete (ms : List Memory) (ids : List String)
    (h : (ms.map Memory.id).Nodup) :
    ((delete_ids ms ids).map Memory.id).Nodup :=
  List.Nodup.sublist (List.Sublist.map _ (List.filter_sublist ms)) h

theorem by_type_delete_ids (ms : List Memory) (ids : List String) (ty : MemoryType) :
    get_memories_by_type (delete_ids ms ids) ty =
      delete_ids (get_memories_by_type ms ty) ids := by
  rw [get_memories_by_type, delete_ids, get_memories_by_type, delete_ids,
    List.filter_filter, List.filter_filter]
  exact List.filter_congr fun m _ => by rw [Bool.and_comm]

theorem delete_ids_eq_self (ms : List Memory) (ids : List String)
    (h : ∀ m ∈ ms, ¬ m.id ∈ ids) : delete_ids ms ids = ms := by
  rw [delete_ids]
  apply List.filter_eq_self.mpr
  intro m hm
  simpa using h m hm

theorem mem_delete_ids (ms : List Memory) (ids : List String) (m : Memory) :
    m ∈ delete_ids ms ids ↔ m ∈ ms ∧ ¬ m.id ∈ ids := by
  simp [delete_ids, List.mem_filter]

theorem contains_map_id_iff (l : List Memory) (s : String) :
    (l.map Memory.id).contains s = true ↔ ∃ t ∈ l, t.id = s := by
  simp

theorem delete_take_eq_drop (l : List Memory) (k : Nat)
    (h : (l.map Memory.id).Nodup) :
    delete_ids l ((l.take k).map Memory.id) = l.drop k := by
  induction l generalizing k with
  | nil => simp [delete_ids]
  | cons x xs ih =>
    cases k with
    | zero => simp [delete_ids]
    | succ k =>
      simp only [List.take_succ_cons, List.drop_succ_cons, List.map_cons]
      rw [delete_ids, List.filter_cons]
      have hpx : (!((x.id :: (xs.take k).map Memory.id).contains x.id)) = false := by simp
      rw [hpx]
      simp only [Bool.false_eq_true, if_false]
      have hxs : ∀ m ∈ xs, m.id ≠ x.id := by
        intro m hm heq
        have hmem : x.id ∈ xs.map Memory.id := heq ▸ List.mem_map_of_mem Memory.id hm
        exact (List.nodup_cons.mp (by simpa using h)).1 hmem
      have hcongr : xs.filter (fun m => !((x.id :: (xs.take k).map Memory.id).contains m.id)) =
          xs.filter (fun m => !(((xs.take k).map Memory.id).contains m.id)) := by
        apply List.filter_congr
        intro m hm
        have h1 : ((x.id :: (xs.take k).map Memory.id).contains m.id) =
            (((xs.take k).map Memory.id).contains m.id) := by
          rw [Bool.eq_iff_iff]
          simp [hxs m hm]
        rw [h1]
      rw [hcongr]
      exact ih k (List.nodup_cons.mp (by simpa using h)).2

theorem by_type_delete_of_other_type (ms src : List Memory) (ty : MemoryType)
    (hid : (ms.map Memory.id).Nodup)
    (hsrc : ∀ d ∈ src, d ∈ ms ∧ ¬ d.memory_type = ty) :
    get_memories_by_type (delete_ids ms (src.map Memory.id)) ty =
      get_memories_by_type ms ty := by
  rw [by_type_delete_ids]
  apply delete_ids_eq_self
  intro m hm hmem
  obtain ⟨d, hd, hdid⟩ := List.mem_map.mp hmem
  have hmms : m ∈ ms := (List.mem_filter.mp hm).1
  have hmty : m.memory_type = ty := by simpa using (List.mem_filter.mp hm).2
  obtain ⟨hdms, hdty⟩ := hsrc d hd
  have hde : d = m := List.inj_on_of_nodup_map hid hdms hmms hdid
  rw [hde] at hdty
  exact hdty hmty

theorem delete_sorted_take_perm (l srt : List Memory) (k : Nat)
    (hperm : srt.Perm l) (h : (l.map Memory.id).Nodup) :
    (delete_ids l ((srt.take k).map Memory.id)).Perm (srt.drop k) := by
  have hsrtnd : (srt.map Memory.id).Nodup :=
    ((hperm.map Memory.id).nodup_iff).mpr h
  have hinj := List.inj_on_of_nodup_map h
  have hrw : delete_ids l ((srt.take k).map Memory.id) =
      l.filter (fun m => !(decide (m ∈ srt.take k))) := by
    apply List.filter_congr
    intro m hm
    have hiff : (((srt.take k).map Memory.id).contains m.id) = true ↔ m ∈ srt.take k := by
      constructor
      · intro hc
        obtain ⟨t, ht, hteq⟩ := (contains_map_id_iff (srt.take k) m.id).mp hc
        have htl : t ∈ l := hperm.mem_iff.mp (List.mem_of_mem_take ht)
        have hte : t = m := hinj htl hm hteq
        exact hte ▸ ht
      · intro ht
        exact (contains_map_id_iff (srt.take k) m.id).mpr ⟨m, ht, rfl⟩
    have hcontains : (((srt.take k).map Memory.id).contains m.id) =
        decide (m ∈ srt.take k) := by
      rw [Bool.eq_iff_iff]
      simp only [decide_eq_true_eq]
      exact hiff
    rw [hcontains]
  rw [hrw]
  refine ((hperm.filter _).symm).trans ?_
  have hsplit : srt.take k ++ srt.drop k = srt := List.take_append_drop k srt
  have hdisj : ∀ a ∈ srt.drop k, a ∉ srt.take k := by
    intro a ha hatake
    have hnd2 : ((srt.take k ++ srt.drop k).map Memory.id).Nodup := by
      rw [hsplit]; exact hsrtnd
    rw [List.map_append] at hnd2
    rcases List.nodup_append.mp hnd2 with ⟨_, _, hdis⟩
    exact hdis (List.mem_map_of_mem Memory.id hatake) (List.mem_map_of_mem Memory.id ha)
  have h1 : (srt.take k).filter (fun m => !(decide (m ∈ srt.take k))) = [] :=
    List.filter_eq_nil_iff.mpr fun a ha => by simp [ha]
  have h2 : (srt.drop k).filter (fun m => !(decide (m ∈ srt.take k))) = srt.drop k :=
    List.filter_eq_self.mpr fun a ha => by simp [hdisj a ha]
  have hfil : (srt.filter fun m => !(decide (m ∈ srt.take k))) = srt.drop k := by
    have hstep : (srt.filter fun m => !(decide (m ∈ srt.take k))) =
        ((srt.take k ++ srt.drop k).filter fun m => !(decide (m ∈ srt.take k))) := by
      rw [hsplit]
    rw [hstep, List.filter_append, h1, h2]
    rfl
  rw [hfil]

theorem nodup_ids_cleanup_short (S : Nat) (ms : List Memory)
    (h : (ms.map Memory.id).Nodup) :
    ((cleanup_short S ms).map Memory.id).Nodup := by
  simp only [cleanup_short]
  split
  · exact nodup_ids_delete _ _ h
  · exact h

theorem short_sublist (ms : List Memory) (ty : MemoryType) :
    (get_memories_by_type ms ty).Sublist ms := by
  rw [get_memories_by_type]
  exact List.filter_sublist ms

theorem nodup_ids_by_type (ms : List Memory) (ty : MemoryType)
    (h : (ms.map Memory.id).Nodup) :
    ((get_memories_by_type ms ty).map Memory.id).Nodup :=
  List.Nodup.sublist (List.Sublist.map _ (short_sublist ms ty)) h

theorem cleanup_short_short (S : Nat) (ms : List Memory)
    (hid : (ms.map Memory.id).Nodup)
    (hts : ms.Pairwise fun a b => a.timestamp < b.timestamp) :
    get_memories_by_type (cleanup_short S ms) .short_term =
      (get_memories_by_type ms .short_term).drop
        ((get_memories_by_type ms .short_term).length - S) := by
  have hsorted : stable_sort mem_le_ts (get_memories_by_type ms .short_term) =
      get_memories_by_type ms .short_term := by
    apply stable_sort_eq_self
    have hp : (get_memories_by_type ms .short_term).Pairwise
        (fun a b => a.timestamp < b.timestamp) :=
      hts.sublist (short_sublist ms .short_term)
    exact hp.imp fun hab => by
      simp only [mem_le_ts, decide_eq_true_eq]
      omega
  simp only [cleanup_short]
  split
  · rw [by_type_delete_ids, hsorted]
    exact delete_take_eq_drop _ _ (nodup_ids_by_type ms .short_term hid)
  · rename_i hle
    have h0 : (get_memories_by_type ms .short_term).length - S = 0 := by omega
    rw [h0, List.drop_zero]

theorem cleanup_short_other (S : Nat) (ms : List Memory)
    (hid : (ms.map Memory.id).Nodup) (ty : MemoryType) (hty : ty ≠ .short_term) :
    get_memories_by_type (cleanup_short S ms) ty = get_memories_by_type ms ty := by
  simp only [cleanup_short]
  split
  · apply by_type_delete_of_other_type _ _ _ hid
    intro d hd
    have hd2 : d ∈ stable_sort mem_le_ts (get_memories_by_type ms .short_term) :=
      List.mem_of_mem_take hd
    have hd3 : d ∈ get_memories_by_type ms .short_term :=
      (stable_sort_perm _ _).mem_iff.mp hd2
    have hd4 := List.mem_filter.mp hd3
    refine ⟨hd4.1, ?_⟩
    have hdty : d.memory_type = .short_term := by simpa using hd4.2
    rw [hdty]
    exact fun hh => hty hh.symm
  · rfl

theorem cleanup_long_other (L : Nat) (ms : List Memory)
    (hid : (ms.map Memory.id).Nodup) (ty : MemoryType) (hty : ty ≠ .long_term) :
    get_memories_by_type (cleanup_long L ms) ty = get_memories_by_type ms ty := by
  simp only [cleanup_long]
  split
  · apply by_type_delete_of_other_type _ _ _ hid
    intro d hd
    have hd2 : d ∈ stable_sort mem_le_imp_ts (get_memories_by_type ms .long_term) :=
      List.mem_of_mem_take hd
    have hd3 : d ∈ get_memories_by_type ms .long_term :=
      (stable_sort_perm _ _).mem_iff.mp hd2
    have hd4 := List.mem_filter.mp hd3
    refine ⟨hd4.1, ?_⟩
    have hdty : d.memory_type = .long_term := by simpa using hd4.2
    rw [hdty]
    exact fun hh => hty hh.symm
  · rfl

theorem cleanup_long_long_perm (L : Nat) (ms : List Memory)
    (hid : (ms.map Memory.id).Nodup) :
    (get_memories_by_type (cleanup_long L ms) .long_term).Perm
      ((stable_sort mem_le_imp_ts (get_memories_by_type ms .long_term)).drop
        ((get_memories_by_type ms .long_term).length - L)) := by
  simp only [cleanup_long]
  split
  · rw [by_type_delete_ids]
    exact delete_sorted_take_perm _ _ _ (stable_sort_perm _ _)
      (nodup_ids_by_type ms .long_term hid)
  · rename_i hle
    have h0 : (get_memories_by_type ms .long_term).length - L = 0 := by omega
    rw [h0, List.drop_zero]
    exact (stable_sort_perm _ _).symm

/-- C7: after eviction (triggered by every `add_memory`) the short-term
survivors are exactly the most recent `max_short` by timestamp (the store
keeps the suffix of the chronologically ordered short-term list), both caps
hold (`min` of the previous count and the cap), every evicted long-term
memory is lexicographically (importance, timestamp) at most every surviving
long-term memory, and with cap 2 the long-term adds of importances
[low, critical, medium] evict the low one, leaving the critical and medium
records. -/
theorem memory_eviction_policy (S L : Nat) (ms : List Memory)
    (hid : (ms.map Memory.id).Nodup)
    (hts : ms.Pairwise fun a b => a.timestamp < b.timestamp) :
    (get_memories_by_type (cleanup_old_memories S L ms) .short_term =
      (get_memories_by_type ms .short_term).drop
        ((get_memories_by_type ms .short_term).length - S)) ∧
    ((get_memories_by_type (cleanup_old_memories S L ms) .short_term).length =
      min (get_memories_by_type ms .short_term).length S) ∧
    ((get_memories_by_type (cleanup_old_memories S L ms) .long_term).length =
      min (get_memories_by_type ms .long_term).length L) ∧
    (∀ d ∈ ms, d.memory_type = .long_term → d ∉ cleanup_old_memories S L ms →
      ∀ s ∈ cleanup_old_memories S L ms, s.memory_type = .long_term →
        mem_le_imp_ts d s = true) ∧
    (add_memory 10 2 (add_memory 10 2 (add_memory 10 2 [] (mk_long_memory "m1" .low 1))
        (mk_long_memory "m2" .critical 2)) (mk_long_memory "m3" .medium 3) =
      [mk_long_memory "m2" .critical 2, mk_long_memory "m3" .medium 3]) := by
  have hid1 : ((cleanup_short S ms).map Memory.id).Nodup := nodup_ids_cleanup_short S ms hid
  have hlong1 : get_memories_by_type (cleanup_short S ms) .long_term =
      get_memories_by_type ms .long_term :=
    cleanup_short_other S ms hid .long_term (by simp)
  have hA : get_memories_by_type (cleanup_old_memories S L ms) .short_term =
      (get_memories_by_type ms .short_term).drop
        ((get_memories_by_type ms .short_term).length - S) := by
    rw [cleanup_old_memories,
      cleanup_long_other L (cleanup_short S ms) hid1 .short_term (by simp)]
    exact cleanup_short_short S ms hid hts
  have hCperm := cleanup_long_long_perm L (cleanup_short S ms) hid1
  rw [hlong1] at hCperm
  refine ⟨hA, ?_, ?_, ?_, ?_⟩
  · rw [hA, List.length_drop]
    omega
  · rw [cleanup_old_memories]
    rw [List.Perm.length_eq hCperm, List.length_drop,
      List.Perm.length_eq (stable_sort_perm mem_le_imp_ts _)]
    omega
  · intro d hdms hdty hdnot s hs hsty
    rw [cleanup_old_memories] at hdnot hs
    have hdlong : d ∈ get_memories_by_type (cleanup_short S ms) .long_term := by
      rw [hlong1]
      exact List.mem_filter.mpr ⟨hdms, by simp [hdty]⟩
    have hdms1 : d ∈ cleanup_short S ms := (List.mem_filter.mp hdlong).1
    by_cases hgt : (get_memories_by_type (cleanup_short S ms) .long_term).length > L
    · have hcm : cleanup_long L (cleanup_short S ms) =
          delete_ids (cleanup_short S ms)
            (((stable_sort mem_le_imp_ts
                (get_memories_by_type (cleanup_short S ms) .long_term)).take
              ((get_memories_by_type (cleanup_short S ms) .long_term).length - L)).map
                Memory.id) := by
        simp only [cleanup_long]
        rw [if_pos hgt]
      rw [hcm] at hdnot hs
      have hsrtperm : (stable_sort mem_le_imp_ts
          (get_memories_by_type (cleanup_short S ms) .long_term)).Perm
          (get_memories_by_type (cleanup_short S ms) .long_term) :=
        stable_sort_perm _ _
      have hsort_pw := stable_sort_pairwise mem_le_imp_ts mem_le_imp_ts_total
        mem_le_imp_ts_trans (get_memories_by_type (cleanup_short S ms) .long_term)
      set srt := stable_sort mem_le_imp_ts
        (get_memories_by_type (cleanup_short S ms) .long_term) with hsrt
      set k := (get_memories_by_type (cleanup_short S ms) .long_term).length - L with hk
      have hdid_in : d.id ∈ (srt.take k).map Memory.id := by
        by_contra hno
        exact hdnot ((mem_delete_ids _ _ _).mpr ⟨hdms1, hno⟩)
      obtain ⟨t, ht, hteq⟩ := List.mem_map.mp hdid_in
      have htms1 : t ∈ cleanup_short S ms :=
        (List.mem_filter.mp (hsrtperm.mem_iff.mp (List.mem_of_mem_take ht))).1
      have hte : t = d := List.inj_on_of_nodup_map hid1 htms1 hdms1 hteq
      have hdtake : d ∈ srt.take k := hte ▸ ht
      rcases (mem_delete_ids _ _ _).mp hs with ⟨hsms1, hsnid⟩
      have hslong1 : s ∈ get_memories_by_type (cleanup_short S ms) .long_term :=
        List.mem_filter.mpr ⟨hsms1, by simp [hsty]⟩
      have hssrt : s ∈ srt := hsrtperm.mem_iff.mpr hslong1
      have hsdrop : s ∈ srt.drop k := by
        have hsplit2 : s ∈ srt.take k ++ srt.drop k := by
          rw [List.take_append_drop]
          exact hssrt
        rcases List.mem_append.mp hsplit2 with htk | hdk
        · exact absurd (List.mem_map_of_mem Memory.id htk) hsnid
        · exact hdk
      have hpair : (srt.take k ++ srt.drop k).Pairwise
          (fun a b => mem_le_imp_ts a b = true) := by
        rw [List.take_append_drop]
        exact hsort_pw
      rcases List.pairwise_append.mp hpair with ⟨_, _, hcross⟩
      exact hcross d hdtake s hsdrop
    · have hcm : cleanup_long L (cleanup_short S ms) = cleanup_short S ms := by
        simp only [cleanup_long]
        rw [if_neg hgt]
      rw [hcm] at hdnot
      exact absurd hdms1 hdnot
  · decide

/-- Witness for C7: the eviction policy applied to a concrete two-element
store with caps 1 and 1. -/
theorem memory_eviction_policy_witness :
    ((([⟨"a", "a", MemoryType.short_term, .medium, 1, []⟩,
        ⟨"b", "b", MemoryType.short_term, .medium, 2, []⟩] : List Memory).map
          Memory.id).Nodup ∧
      get_memories_by_type (cleanup_old_memories 1 1
          [⟨"a", "a", MemoryType.short_term, .medium, 1, []⟩,
           ⟨"b", "b", MemoryType.short_term, .medium, 2, []⟩]) .short_term =
        [⟨"b", "b", MemoryType.short_term, .medium, 2, []⟩]) := by
  constructor
  · decide
  · have h := (memory_eviction_policy 1 1
      [⟨"a", "a", MemoryType.short_term, .medium, 1, []⟩,
       ⟨"b", "b", MemoryType.short_term, .medium, 2, []⟩]
      (by decide) (by decide)).1
    rw [h]
    decide

/-! ## Tool registry error absorption -/

/-- C8: `execute_tool` always returns a string: a successful tool run
returns the tool's own result, and every failure mode — unknown tool name,
JSON-malformed arguments, an argument/signature mismatch (`TypeError`), or
any exception raised inside the tool body — is converted to a human-readable
result beginning with the error prefix `"错误"` instead of an exception
escaping the registry boundary. -/
theorem execute_tool_never_raises {A : Type} (lookup : String → Option (A → ToolOutcome))
    (parse : String → Except String A) (tool_name arguments_str : String) :
    ((∃ tool arguments r, lookup tool_name = some tool ∧
        parse arguments_str = Except.ok arguments ∧ tool arguments = ToolOutcome.ok r ∧
        execute_tool lookup parse tool_name arguments_str = r) ∨
      (∃ rest, execute_tool lookup parse tool_name arguments_str = "错误" ++ rest)) ∧
    (lookup tool_name = none →
      execute_tool lookup parse tool_name arguments_str = "错误：未知工具 " ++ tool_name) ∧
    (∀ tool e, lookup tool_name = some tool → parse arguments_str = Except.error e →
      execute_tool lookup parse tool_name arguments_str =
        "错误：参数必须是有效的 JSON 格式。\n输入: " ++ arguments_str ++ "\n错误: " ++ e) ∧
    (∀ tool arguments m, lookup tool_name = some tool →
      parse arguments_str = Except.ok arguments → tool arguments = ToolOutcome.type_error m →
      execute_tool lookup parse tool_name arguments_str = "错误：参数不匹配 - " ++ m) ∧
    (∀ tool arguments m, lookup tool_name = some tool →
      parse arguments_str = Except.ok arguments → tool arguments = ToolOutcome.exception m →
      execute_tool lookup parse tool_name arguments_str = "错误：工具执行失败 - " ++ m) := by
  have e1 : ("错误：未知工具 " : String) = "错误" ++ "：未知工具 " := by decide
  have e2 : ("错误：参数必须是有效的 JSON 格式。\n输入: " : String) =
      "错误" ++ "：参数必须是有效的 JSON 格式。\n输入: " := by decide
  have e3 : ("错误：参数不匹配 - " : String) = "错误" ++ "：参数不匹配 - " := by decide
  have e4 : ("错误：工具执行失败 - " : String) = "错误" ++ "：工具执行失败 - " := by decide
  refine ⟨?_, ?_, ?_, ?_, ?_⟩
  · rcases hl : lookup tool_name with _ | tool
    · right
      refine ⟨"：未知工具 " ++ tool_name, ?_⟩
      simp only [execute_tool, hl]
      rw [e1, String.append_assoc]
    · rcases hp : parse arguments_str with e | arguments
      · right
        refine ⟨"：参数必须是有效的 JSON 格式。\n输入: " ++ arguments_str ++ "\n错误: " ++ e, ?_⟩
        simp only [execute_tool, hl, hp]
        rw [e2]
        simp only [String.append_assoc]
      · rcases ht : tool arguments with r | m | m
        · left
          refine ⟨tool, arguments, r, ?_, ?_, ?_, by simp only [execute_tool, hl, hp, ht]⟩
          · rfl
          · rfl
          · exact ht
        · right
          refine ⟨"：参数不匹配 - " ++ m, ?_⟩
          simp only [execute_tool, hl, hp, ht]
          rw [e3, String.append_assoc]
        · right
          refine ⟨"：工具执行失败 - " ++ m, ?_⟩
          simp only [execute_tool, hl, hp, ht]
          rw [e4, String.append_assoc]
  · intro hl
    simp only [execute_tool, hl]
  · intro tool e hl hp
    simp only [execute_tool, hl, hp]
  · intro tool arguments m hl hp ht
    simp only [execute_tool, hl, hp, ht]
  · intro tool arguments m hl hp ht
    simp only [execute_tool, hl, hp, ht]

/-- Witness for C8: the registry with the `"echo"` tool converts an unknown
tool name to an error string. -/
theorem execute_tool_never_raises_witness :
    execute_tool demo_lookup demo_parse "nope" "1" = "错误：未知工具 " ++ "nope" :=
  (execute_tool_never_raises demo_lookup demo_parse "nope" "1").2.1
    (by simp [demo_lookup])

/-! ## Task delegation -/

theorem find_task_update (ts : List Task) (tid : String) (st : TaskStatus)
    (result error : Option String) :
    find_task (update_task_status ts tid st result error) tid =
      (find_task ts tid).map fun t =>
        { t with
          status := st
          result := match result with
            | some r => if r ≠ "" then some r else t.result
            | none => t.result
          error := match error with
            | some e => if e ≠ "" then some e else t.error
            | none => t.error } := by
  induction ts with
  | nil => rfl
  | cons t ts ih =>
    simp only [update_task_status, find_task, List.map_cons, List.find?] at ih ⊢
    by_cases h : (t.id == tid) = true
    · rw [if_pos h]
      simp only [List.find?, h]
      rfl
    · rw [if_neg h]
      simp only [List.find?, Bool.not_eq_true] at h
      simp only [List.find?, h]
      exact ih

/-- C9 (amended): executing one task delegates to the resolved agent with
the task's description against a fresh empty history; on success the task is
marked completed, its result being the concatenation of the delegate's
streamed `assistant_chunk` contents when that concatenation is non-empty and
the placeholder `"任务已完成"` when the delegate streamed no text; if the
delegation raises, the task is marked failed with the exception's (non-empty)
message as its error. -/
theorem single_task_delegation (agents : String → Option AgentFun) (ts : List Task)
    (task : Task) (f : AgentFun)
    (hres : agents (resolve_agent_name task) = some f)
    (hfind : find_task ts task.id = some task) :
    (∀ evs, f task.description [] = .ok evs →
      find_task (execute_single_task agents ts task).1 task.id =
        some { task with
          status := .completed
          result := some (if String.join (capture_chunks evs) = "" then "任务已完成"
            else String.join (capture_chunks evs)) }) ∧
    (∀ evs m, f task.description [] = .raised evs m → m ≠ "" →
      find_task (execute_single_task agents ts task).1 task.id =
        some { task with status := .failed, error := some m }) := by
  constructor
  · intro evs hok
    simp only [execute_single_task, delegate_to_agent, hres, hok]
    rcases Decidable.em (String.join (capture_chunks evs) = "") with hj | hj
    · simp only [hj, if_pos rfl, reduceIte]
      rw [find_task_update, find_task_update, hfind]
      simp
    · simp only [if_neg hj]
      rw [find_task_update, find_task_update, hfind]
      simp only [Option.map_some]
      have hne : (if String.join (capture_chunks evs) = "" then "任务已完成"
          else String.join (capture_chunks evs)) = String.join (capture_chunks evs) :=
        if_neg hj
      simp [hj, hne]
  · intro evs m hraise hm
    simp only [execute_single_task, delegate_to_agent, hres, hraise]
    rw [find_task_update, find_task_update, hfind]
    simp [hm]

/-- Witness for C9: delegating a concrete task to the chatty default
executor marks it completed with result "done!". -/
theorem single_task_delegation_witness :
    find_task (execute_single_task chatty_agents [mk_task "t1" .medium]
        (mk_task "t1" .medium)).1 "t1" =
      some { mk_task "t1" .medium with
        status := .completed
        result := some (if String.join (capture_chunks
            [.assistant_chunk 0 "done", .assistant_chunk 0 "!"]) = "" then "任务已完成"
          else String.join (capture_chunks
            [.assistant_chunk 0 "done", .assistant_chunk 0 "!"])) } :=
  (single_task_delegation chatty_agents [mk_task "t1" .medium] (mk_task "t1" .medium)
    (fun _ _ => .ok [.assistant_chunk 0 "done", .assistant_chunk 0 "!"])
    (by simp [chatty_agents, resolve_agent_name, mk_task]) (by decide)).1
    [.assistant_chunk 0 "done", .assistant_chunk 0 "!"] rfl

/-- C9 counterexample: a delegate that completes without streaming any text
fragment leaves the task completed with the fallback result "任务已完成",
which differs from the (empty) concatenation of its streamed fragments. -/
theorem delegation_empty_result_fallback :
    find_task (execute_single_task silent_agents [mk_task "t1" .medium]
        (mk_task "t1" .medium)).1 "t1" =
      some { mk_task "t1" .medium with status := .completed, result := some "任务已完成" } ∧
    ("任务已完成" : String) ≠ String.join (capture_chunks []) := by
  constructor
  · decide
  · decide

/-! ## Sequential execution driver -/

/-- C10: the sequential driver executes at most `max_iterations` tasks in
one planning run (default 20); with budget 2 over three independent pending
tasks it executes exactly two, leaves a task still pending and executable,
marks nothing blocked or failed, and emits no error or blocked-state
signal. -/
theorem sequential_driver_iteration_cap (agents : String → Option AgentFun)
    (fuel : Nat) (ts : List Task) :
    (execute_tasks_sequentially agents fuel ts).2.2 ≤ fuel ∧
    planning_default_max_iterations = 20 ∧
    ((execute_tasks_sequentially chatty_agents 2
        [mk_task "a" .medium, mk_task "b" .medium, mk_task "c" .medium]).2.2 = 2 ∧
      (∃ t ∈ (execute_tasks_sequentially chatty_agents 2
        [mk_task "a" .medium, mk_task "b" .medium, mk_task "c" .medium]).1,
        t.status = .pending) ∧
      get_executable_tasks (execute_tasks_sequentially chatty_agents 2
        [mk_task "a" .medium, mk_task "b" .medium, mk_task "c" .medium]).1 ≠ [] ∧
      (∀ t ∈ (execute_tasks_sequentially chatty_agents 2
          [mk_task "a" .medium, mk_task "b" .medium, mk_task "c" .medium]).1,
        t.status ≠ .blocked ∧ t.status ≠ .failed) ∧
      (∀ e ∈ (execute_tasks_sequentially chatty_agents 2
          [mk_task "a" .medium, mk_task "b" .medium, mk_task "c" .medium]).2.1,
        benign_event e = true)) := by
  refine ⟨?_, rfl, ?_⟩
  · induction fuel generalizing ts with
    | zero => exact Nat.le_refl 0
    | succ n ih =>
      simp only [execute_tasks_sequentially]
      rcases get_executable_tasks ts with _ | ⟨task, rest⟩
      · exact Nat.zero_le _
      · simpa using Nat.succ_le_succ (ih _)
  · refine ⟨by decide, ?_, by decide, by decide, ?_⟩
    · exact ⟨mk_task "c" .medium, by decide, by decide⟩
    · decide

/-- Witness for C10: the bound instantiated at the concrete two-step run. -/
theorem sequential_driver_iteration_cap_witness :
    (execute_tasks_sequentially chatty_agents 2
      [mk_task "a" .medium, mk_task "b" .medium, mk_task "c" .medium]).2.2 ≤ 2 :=
  (sequential_driver_iteration_cap chatty_agents 2
    [mk_task "a" .medium, mk_task "b" .medium, mk_task "c" .medium]).1

/-! ## Turn executor: stream consumption -/

theorem consume_chunks_no_cancel (mid : Nat) (ds : List Delta) (j : Nat) (acc : StreamAcc) :
    consume_chunks (fun _ => false) mid ds j acc =
      ⟨(delta_frags ds).foldl update_dict acc.tool_calls_dict,
        acc.content_buffer ++ String.join (ds.map Delta.content),
        acc.events ++ chunk_events mid ds,
        acc.cancelled⟩ := by
  induction ds generalizing j acc with
  | nil =>
    cases acc
    simp [consume_chunks, delta_frags, chunk_events, String.join, String.append_empty]
  | cons d rest ih =>
    simp only [consume_chunks, Bool.false_eq_true, if_false]
    rcases Decidable.em (d.content ≠ "") with hc | hc
    · rw [if_pos hc, ih]
      simp only [delta_frags, chunk_events, if_pos hc, List.foldl_append,
        List.map_cons, string_join_cons, String.append_assoc, List.append_assoc]
    · rw [if_neg hc, ih]
      have hc2 : d.content = "" := by
        rcases Decidable.em (d.content = "") with h | h
        · exact h
        · exact absurd h hc
      simp only [delta_frags, chunk_events, if_neg hc, List.foldl_append,
        List.map_cons, string_join_cons, hc2, String.empty_append, List.nil_append]
      simp

theorem update_dict_ne_nil (d : List (Nat × ToolCallRequest)) (f : Frag) :
    update_dict d f ≠ [] := by
  cases d with
  | nil => simp [update_dict]
  | cons p rest =>
    obtain ⟨k, e⟩ := p
    simp only [update_dict]
    split <;> simp

theorem foldl_update_dict_ne_nil (frags : List Frag) (d : List (Nat × ToolCallRequest))
    (h : d ≠ []) : frags.foldl update_dict d ≠ [] := by
  induction frags generalizing d with
  | nil => exact h
  | cons f fs ih => exact ih (update_dict d f) (update_dict_ne_nil d f)

theorem build_dict_empty_iff (frags : List Frag) :
    frags.foldl update_dict [] = [] ↔ frags = [] := by
  constructor
  · intro h
    cases frags with
    | nil => rfl
    | cons f fs =>
      exact absurd h (foldl_update_dict_ne_nil fs (update_dict [] f) (update_dict_ne_nil [] f))
  · intro h
    rw [h]
    rfl

theorem execute_tool_calls_no_cancel (toolExec : String → String → String)
    (tcs : List ToolCallRequest) (j : Nat) (msgs : List Message) (evs : List Event) :
    execute_tool_calls toolExec (fun _ => false) tcs j msgs evs =
      (msgs ++ tcs.map (fun tc => .tool tc.id tc.name (toolExec tc.name tc.arguments)),
        evs ++ tcs.map (fun tc => .tool_call tc.name (toolExec tc.name tc.arguments))) := by
  induction tcs generalizing j msgs evs with
  | nil => simp [execute_tool_calls]
  | cons tc rest ih =>
    simp only [execute_tool_calls, Bool.false_eq_true, if_false, List.map_cons]
    rw [ih]
    simp

theorem wf_fold_tool_msgs (toolExec : String → String → String)
    (tcs : List ToolCallRequest) (ok : Bool) :
    ((tcs.map fun tc => Message.tool tc.id tc.name (toolExec tc.name tc.arguments)).foldl
      wf_step (tcs, ok)) = ([], ok) := by
  induction tcs with
  | nil => rfl
  | cons tc rest ih =>
    simp only [List.map_cons, List.foldl]
    have hstep : wf_step (tc :: rest, ok)
        (Message.tool tc.id tc.name (toolExec tc.name tc.arguments)) = (rest, ok) := by
      simp [wf_step]
    rw [hstep]
    exact ih

theorem llm_iteration_cancelled (toolExec : String → String → String) (deltas : List Delta)
    (stream_error : Option String) (sflags tflags : Nat → Bool) (msgs : List Message)
    (mid : Nat)
    (h : (consume_chunks sflags mid deltas 0 ⟨[], "", [.assistant_start mid], false⟩).cancelled
      = true) :
    llm_iteration toolExec deltas stream_error sflags tflags msgs mid =
      .ret msgs
        (consume_chunks sflags mid deltas 0 ⟨[], "", [.assistant_start mid], false⟩).events
        false := by
  simp only [llm_iteration, h, if_true]

theorem llm_iteration_raised (toolExec : String → String → String) (deltas : List Delta)
    (m : String) (sflags tflags : Nat → Bool) (msgs : List Message) (mid : Nat)
    (h : (consume_chunks sflags mid deltas 0 ⟨[], "", [.assistant_start mid], false⟩).cancelled
      = false) :
    llm_iteration toolExec deltas (some m) sflags tflags msgs mid =
      .raised
        (consume_chunks sflags mid deltas 0 ⟨[], "", [.assistant_start mid], false⟩).events
        m := by
  simp only [llm_iteration, h, Bool.false_eq_true, if_false]

/-- One no-cancellation iteration of a stream that does not raise: the
history grows by one closed block (a plain assistant message, or an
assistant message with tool calls followed by exactly its tool messages)
and the has-tool-calls flag is exactly whether the response carried
tool-call fragments. -/
theorem llm_iteration_no_cancel_spec (toolExec : String → String → String)
    (ds : List Delta) (msgs : List Message) (mid : Nat) :
    ∃ newMsgs evs,
      llm_iteration toolExec ds none (fun _ => false) (fun _ => false) msgs mid =
        .ret (msgs ++ newMsgs) evs (stream_has_tool_calls (.stream ds none)) ∧
      newMsgs.foldl wf_step ([], true) = ([], true) := by
  rw [llm_iteration, consume_chunks_no_cancel]
  rcases hdict : (delta_frags ds).foldl update_dict [] with _ | ⟨p, rest⟩
  · have hempty : delta_frags ds = [] := (build_dict_empty_iff (delta_frags ds)).mp hdict
    have htc : stream_has_tool_calls (.stream ds none) = false := by
      simp [stream_has_tool_calls, hempty]
    rw [htc]
    refine ⟨[.assistant (some ("" ++ String.join (ds.map Delta.content))) []],
      [Event.assistant_start mid] ++ chunk_events mid ds, ?_, ?_⟩
    · simp only [hdict, Bool.false_eq_true, if_false, List.map_nil]
    · rfl
  · have hne : delta_frags ds ≠ [] := by
      intro hh
      rw [hh] at hdict
      exact List.noConfusion hdict
    have htc : stream_has_tool_calls (.stream ds none) = true := by
      cases hdf : delta_frags ds with
      | nil => exact absurd hdf hne
      | cons a b => simp [stream_has_tool_calls, hdf]
    rw [htc]
    refine ⟨.assistant (if ("" ++ String.join (ds.map Delta.content)) ≠ ""
        then some ("" ++ String.join (ds.map Delta.content)) else none)
          ((p :: rest).map Prod.snd) ::
        ((p :: rest).map Prod.snd).map
          (fun tc => Message.tool tc.id tc.name (toolExec tc.name tc.arguments)),
      [Event.assistant_start mid] ++ chunk_events mid ds ++
        [Event.assistant_end mid,
          Event.tool_calls_start (((p :: rest).map Prod.snd).map
            fun tc => (tc.name, tc.arguments))] ++
        ((p :: rest).map Prod.snd).map
          (fun tc => Event.tool_call tc.name (toolExec tc.name tc.arguments)),
      ?_, ?_⟩
    · simp only [hdict, Bool.false_eq_true, if_false, List.map_cons]
      rw [execute_tool_calls_no_cancel]
      simp [List.append_assoc]
    · simp only [List.foldl]
      have hstep : wf_step ([], true)
          (Message.assistant (if ("" ++ String.join (ds.map Delta.content)) ≠ ""
            then some ("" ++ String.join (ds.map Delta.content)) else none)
            ((p :: rest).map Prod.snd)) = ((p :: rest).map Prod.snd, true) := by
        simp only [List.map_cons]
        rfl
      rw [hstep]
      exact wf_fold_tool_msgs toolExec ((p :: rest).map Prod.snd) true

theorem consume_no_cancel_not_cancelled (mid : Nat) (ds : List Delta) (j : Nat)
    (acc : StreamAcc) :
    (consume_chunks (fun _ => false) mid ds j acc).cancelled = acc.cancelled := by
  rw [consume_chunks_no_cancel]

/-! ## Turn executor: the iteration loop -/

theorem process_iters_precancelled (toolExec : String → String → String)
    (streams : Nat → LLMCall) (co : CancelReads) (fuel idx : Nat) (st : LoopState)
    (h : co.pre idx = true) :
    process_iters toolExec streams co (fuel + 1) idx st =
      ({ st with events := st.events ++ [.assistant_end st.mid] }, .cancelled) := by
  simp only [process_iters, h, if_true]

theorem process_iters_last_event (toolExec : String → String → String)
    (streams : Nat → LLMCall) (co : CancelReads) :
    ∀ (fuel idx : Nat) (st : LoopState),
    ((∀ m, (process_iters toolExec streams co fuel idx st).2 ≠ .errored m) →
      (process_iters toolExec streams co fuel idx st).1.events.getLast? =
        some (.assistant_end (process_iters toolExec streams co fuel idx st).1.mid)) ∧
    (∀ m, (process_iters toolExec streams co fuel idx st).2 = .errored m →
      ∃ s, (process_iters toolExec streams co fuel idx st).1.events.getLast? =
        some (.error_event s)) := by
  intro fuel
  induction fuel with
  | zero =>
    intro idx st
    constructor
    · intro _
      simp [process_iters, List.getLast?_concat]
    · intro m hm
      simp [process_iters] at hm
  | succ n ih =>
    intro idx st
    simp only [process_iters]
    split
    · constructor
      · intro _
        simp [List.getLast?_concat]
      · intro m hm
        simp at hm
    · split
      · constructor
        · intro hno
          exact absurd rfl (hno _)
        · intro m hm
          exact ⟨_, List.getLast?_concat _⟩
      · split
        · rename_i evs2 merr heq2
          constructor
          · intro hno
            exact absurd rfl (hno _)
          · intro m hm
            exact ⟨"处理消息时出错: " ++ merr, List.getLast?_concat _⟩
        · split
          · exact ih (idx + 1) _
          · constructor
            · intro _
              exact List.getLast?_concat _
            · intro m hm
              simp at hm

theorem advance_mid_msgs (idx : Nat) (st : LoopState) :
    (advance_mid idx st).msgs = st.msgs := by
  simp only [advance_mid]
  split <;> rfl

theorem advance_mid_llm_calls (idx : Nat) (st : LoopState) :
    (advance_mid idx st).llm_calls = st.llm_calls := by
  simp only [advance_mid]
  split <;> rfl

theorem process_iters_wf (toolExec : String → String → String) (streams : Nat → LLMCall) :
    ∀ (fuel idx : Nat) (st : LoopState),
    st.msgs.foldl wf_step ([], true) = ([], true) →
    ((process_iters toolExec streams no_cancel fuel idx st).1.msgs).foldl wf_step
      ([], true) = ([], true) := by
  intro fuel
  induction fuel with
  | zero =>
    intro idx st h
    simpa [process_iters] using h
  | succ n ih =>
    intro idx st h
    simp only [process_iters, no_cancel, Bool.false_eq_true, if_false]
    split
    · rw [advance_mid_msgs]
      exact h
    · rename_i ds serr heq
      rcases serr with _ | m
      · obtain ⟨newMsgs, evs, hit, hblock⟩ :=
          llm_iteration_no_cancel_spec toolExec ds (advance_mid idx st).msgs
            (advance_mid idx st).mid
        rw [hit]
        dsimp only
        have hnew : ((advance_mid idx st).msgs ++ newMsgs).foldl wf_step ([], true) =
            ([], true) := by
          rw [List.foldl_append, advance_mid_msgs, h, hblock]
        by_cases htc : stream_has_tool_calls (LLMCall.stream ds none) = true
        · rw [if_pos htc]
          exact ih (idx + 1) _ hnew
        · rw [if_neg htc]
          exact hnew
      · have hcan : (consume_chunks (fun _ => false) (advance_mid idx st).mid ds 0
            ⟨[], "", [.assistant_start (advance_mid idx st).mid], false⟩).cancelled
              = false := by
          rw [consume_no_cancel_not_cancelled]
        rw [llm_iteration_raised toolExec ds m _ _ _ _ hcan]
        dsimp only
        rw [advance_mid_msgs]
        exact h

theorem process_iters_calls_all_tools (toolExec : String → String → String)
    (streams : Nat → LLMCall) :
    ∀ (fuel idx : Nat) (st : LoopState),
    (∀ k, idx ≤ k → k < idx + fuel → ∃ ds, streams k = .stream ds none) →
    (∀ k, idx ≤ k → k < idx + fuel → stream_has_tool_calls (streams k) = true) →
    (process_iters toolExec streams no_cancel fuel idx st).1.llm_calls =
      st.llm_calls + fuel := by
  intro fuel
  induction fuel with
  | zero =>
    intro idx st _ _
    simp [process_iters]
  | succ n ih =>
    intro idx st hok htc
    simp only [process_iters]
    rw [show no_cancel.pre idx = false from rfl]
    simp only [Bool.false_eq_true, if_false]
    obtain ⟨ds, hds⟩ := hok idx (Nat.le_refl idx) (by omega)
    rw [hds]
    dsimp only
    rw [show no_cancel.during_stream idx = (fun _ => false) from rfl,
      show no_cancel.before_tool idx = (fun _ => false) from rfl]
    obtain ⟨newMsgs, evs, hit, hblock⟩ :=
      llm_iteration_no_cancel_spec toolExec ds (advance_mid idx st).msgs
        (advance_mid idx st).mid
    rw [hit]
    dsimp only
    have htci : stream_has_tool_calls (.stream ds none) = true := by
      have hh := htc idx (Nat.le_refl idx) (by omega)
      rw [hds] at hh
      exact hh
    rw [if_pos htci]
    rw [ih (idx + 1) _ (fun k hk1 hk2 => hok k (by omega) (by omega))
      (fun k hk1 hk2 => htc k (by omega) (by omega))]
    dsimp only
    rw [advance_mid_llm_calls]
    omega

theorem process_iters_calls_first_stop (toolExec : String → String → String)
    (streams : Nat → LLMCall) :
    ∀ (N fuel idx : Nat) (st : LoopState),
    N < fuel →
    (∀ k, idx ≤ k → k ≤ idx + N → ∃ ds, streams k = .stream ds none) →
    (∀ k, idx ≤ k → k < idx + N → stream_has_tool_calls (streams k) = true) →
    stream_has_tool_calls (streams (idx + N)) = false →
    (process_iters toolExec streams no_cancel fuel idx st).1.llm_calls =
      st.llm_calls + N + 1 := by
  intro N
  induction N with
  | zero =>
    intro fuel idx st hlt hok htc hstop
    cases fuel with
    | zero => omega
    | succ f =>
      simp only [process_iters]
      rw [show no_cancel.pre idx = false from rfl]
      simp only [Bool.false_eq_true, if_false]
      obtain ⟨ds, hds⟩ := hok idx (Nat.le_refl idx) (by omega)
      rw [hds]
      dsimp only
      rw [show no_cancel.during_stream idx = (fun _ => false) from rfl,
        show no_cancel.before_tool idx = (fun _ => false) from rfl]
      obtain ⟨newMsgs, evs, hit, hblock⟩ :=
        llm_iteration_no_cancel_spec toolExec ds (advance_mid idx st).msgs
          (advance_mid idx st).mid
      rw [hit]
      dsimp only
      have hstop2 : stream_has_tool_calls (.stream ds none) = false := by
        have hh := hstop
        rw [Nat.add_zero, hds] at hh
        exact hh
      rw [hstop2]
      simp only [Bool.false_eq_true, if_false]
      rw [advance_mid_llm_calls]
  | succ M ihN =>
    intro fuel idx st hlt hok htc hstop
    cases fuel with
    | zero => omega
    | succ f =>
      simp only [process_iters]
      rw [show no_cancel.pre idx = false from rfl]
      simp only [Bool.false_eq_true, if_false]
      obtain ⟨ds, hds⟩ := hok idx (Nat.le_refl idx) (by omega)
      rw [hds]
      dsimp only
      rw [show no_cancel.during_stream idx = (fun _ => false) from rfl,
        show no_cancel.before_tool idx = (fun _ => false) from rfl]
      obtain ⟨newMsgs, evs, hit, hblock⟩ :=
        llm_iteration_no_cancel_spec toolExec ds (advance_mid idx st).msgs
          (advance_mid idx st).mid
      rw [hit]
      dsimp only
      have htci : stream_has_tool_calls (.stream ds none) = true := by
        have hh := htc idx (Nat.le_refl idx) (by omega)
        rw [hds] at hh
        exact hh
      rw [if_pos htci]
      have hstop2 : stream_has_tool_calls (streams (idx + 1 + M)) = false := by
        have heq2 : idx + 1 + M = idx + (M + 1) := by omega
        rw [heq2]
        exact hstop
      rw [ihN f (idx + 1) _ (by omega)
        (fun k hk1 hk2 => hok k (by omega) (by omega))
        (fun k hk1 hk2 => htc k (by omega) (by omega)) hstop2]
      dsimp only
      rw [advance_mid_llm_calls]
      omega

theorem consume_chunks_cancel_point (flags : Nat → Bool) (mid : Nat) :
    ∀ (pre : List Delta) (d : Delta) (rest : List Delta) (j : Nat) (acc : StreamAcc),
    (∀ i, i < pre.length → flags (j + i) = false) → flags (j + pre.length) = true →
    consume_chunks flags mid (pre ++ d :: rest) j acc =
      { consume_chunks flags mid pre j acc with cancelled := true } := by
  intro pre
  induction pre with
  | nil =>
    intro d rest j acc hpre hd
    simp only [List.length_nil, Nat.add_zero] at hd
    simp only [List.nil_append, consume_chunks, hd, if_true]
  | cons p ps ih =>
    intro d rest j acc hpre hd
    have h0 : flags j = false := by
      have hh := hpre 0 (by simp)
      simpa using hh
    simp only [List.cons_append, consume_chunks, h0, Bool.false_eq_true, if_false]
    refine ih d rest (j + 1) _ ?_ ?_
    · intro i hi
      have hh := hpre (i + 1) (by simpa using Nat.succ_lt_succ hi)
      rwa [show j + (i + 1) = j + 1 + i from by omega] at hh
    · have hh := hd
      rwa [show j + (p :: ps).length = j + 1 + ps.length from by
        simp [List.length_cons]
        omega] at hh

/-! ## The claims about the turn executor -/

theorem check_wf_eq_true_iff (l : List Message) :
    check_wf l = true ↔ l.foldl wf_step ([], true) = ([], true) := by
  simp only [check_wf]
  rcases hf : l.foldl wf_step ([], true) with ⟨pending, ok⟩
  constructor
  · intro h
    simp only [Bool.and_eq_true, List.isEmpty_iff] at h
    obtain ⟨h1, h2⟩ := h
    rw [h1, h2]
  · intro h
    obtain ⟨h1, h2⟩ := Prod.mk.injEq .. ▸ h
    simp [h1, h2]

/-- C2 (amended): after any turn during which the cancel flag was never
observed set — in particular after every completed turn — every assistant
message carrying tool-call requests in the session history is immediately
followed by exactly one tool message per requested call, in request order,
matched by tool-call id, with no user or assistant message interleaved.  (A
turn cancelled during the tool-execution phase can instead leave the final
tool-call-bearing assistant message followed by tool messages for only a
prefix of its requests, in request order.) -/
theorem history_well_formed (toolExec : String → String → String)
    (streams : Nat → LLMCall) (env_flag : Bool) (M : Nat) (msgs0 : List Message)
    (ui : String) (hwf : check_wf msgs0 = true) :
    check_wf (process_streaming toolExec streams no_cancel env_flag M msgs0 ui).messages
      = true := by
  rw [check_wf_eq_true_iff] at hwf ⊢
  simp only [process_streaming]
  apply process_iters_wf
  rw [List.foldl_append, hwf]
  rfl

/-- Witness for C2: a two-iteration tool-calling turn with no cancellation
leaves a well-formed history. -/
theorem history_well_formed_witness :
    check_wf (process_streaming const_tool_runner one_tool_call_stream no_cancel
      false 2 [] "hi").messages = true :=
  history_well_formed const_tool_runner one_tool_call_stream false 2 [] "hi" rfl

/-- C2 counterexample: a turn whose cancel flag is observed set before the
first tool execution (and at the next pre-iteration check) ends cancelled
with an assistant message carrying one tool-call request followed by no tool
message at all. -/
theorem cancelled_turn_history_malformed :
    (process_streaming const_tool_runner one_tool_call_stream cancel_before_first_tool
        false 2 [] "hi").messages =
      [Message.user "hi",
        Message.assistant none [⟨"call_1", "function", "get_time", "x"⟩]] ∧
    check_wf (process_streaming const_tool_runner one_tool_call_stream
      cancel_before_first_tool false 2 [] "hi").messages = false ∧
    (process_streaming const_tool_runner one_tool_call_stream cancel_before_first_tool
      false 2 [] "hi").outcome = Outcome.cancelled := by
  refine ⟨by decide, by decide, by decide⟩

/-- C3: with no cancellation and no stream error, the number of streaming
LLM calls of a turn is the index of the first response with no tool-call
fragments (capped at `max_iterations`): a tool-call-free response on
iteration 1 ends the turn after exactly one round-trip, and a turn whose
every response carries tool calls performs exactly `max_iterations`
round-trips, never more. -/
theorem llm_call_count (toolExec : String → String → String) (streams : Nat → LLMCall)
    (env_flag : Bool) (M N : Nat) (msgs0 : List Message) (ui : String)
    (_hM : 1 ≤ M)
    (hok : ∀ k, k < M → ∃ ds, streams k = .stream ds none) :
    ((∀ k, k < N → stream_has_tool_calls (streams k) = true) →
      stream_has_tool_calls (streams N) = false →
      (process_streaming toolExec streams no_cancel env_flag M msgs0 ui).llm_calls =
        min (N + 1) M) ∧
    ((∀ k, k < M → stream_has_tool_calls (streams k) = true) →
      (process_streaming toolExec streams no_cancel env_flag M msgs0 ui).llm_calls = M) := by
  constructor
  · intro htc hstop
    simp only [process_streaming]
    by_cases hNM : N < M
    · rw [process_iters_calls_first_stop toolExec streams N M 0 _ hNM
        (fun k hk1 hk2 => hok k (by omega))
        (fun k hk1 hk2 => htc k (by omega))
        (by simpa using hstop)]
      dsimp only
      omega
    · rw [process_iters_calls_all_tools toolExec streams M 0 _
        (fun k hk1 hk2 => hok k (by omega))
        (fun k hk1 hk2 => htc k (by omega))]
      dsimp only
      omega
  · intro htc
    simp only [process_streaming]
    rw [process_iters_calls_all_tools toolExec streams M 0 _
      (fun k hk1 hk2 => hok k (by omega))
      (fun k hk1 hk2 => htc k (by omega))]
    dsimp only
    omega

/-- Witness for C3: a tool-call-free first response ends a budget-3 turn
after exactly one LLM call. -/
theorem llm_call_count_witness :
    (process_streaming const_tool_runner (fun _ => LLMCall.stream [] none) no_cancel
      false 3 [] "hi").llm_calls = min (0 + 1) 3 :=
  (llm_call_count const_tool_runner (fun _ => LLMCall.stream [] none) false 3 0 [] "hi"
    (by omega) (fun k _ => ⟨[], rfl⟩)).1 (fun k hk => absurd hk (by omega)) rfl

/-- C4: (a) if the cancel flag reads true at iteration N's pre-check, the
loop stops at once: no LLM call is issued for iteration N (the whole loop
state, including the call count, is unchanged), a turn-end signal for the
current message id is emitted, and the outcome is cancelled; (b) if the flag
reads true at the check before chunk k of the delta stream, consumption
stops there: the events are exactly those emitted before that check point
(no further content deltas); (c) an iteration whose stream consumption was
cancelled returns the history unchanged — no assistant message is appended
for the partial iteration. -/
theorem cancellation_promptness (toolExec : String → String → String)
    (streams : Nat → LLMCall) (co : CancelReads) :
    (∀ (fuel idx : Nat) (st : LoopState), co.pre idx = true →
      process_iters toolExec streams co (fuel + 1) idx st =
        ({ st with events := st.events ++ [Event.assistant_end st.mid] }, .cancelled)) ∧
    (∀ (flags : Nat → Bool) (mid : Nat) (pre : List Delta) (d : Delta) (rest : List Delta)
        (j : Nat) (acc : StreamAcc),
      (∀ i, i < pre.length → flags (j + i) = false) → flags (j + pre.length) = true →
      consume_chunks flags mid (pre ++ d :: rest) j acc =
        { consume_chunks flags mid pre j acc with cancelled := true }) ∧
    (∀ (deltas : List Delta) (stream_error : Option String) (sflags tflags : Nat → Bool)
        (msgs : List Message) (mid : Nat),
      (consume_chunks sflags mid deltas 0
        ⟨[], "", [.assistant_start mid], false⟩).cancelled = true →
      llm_iteration toolExec deltas stream_error sflags tflags msgs mid =
        .ret msgs (consume_chunks sflags mid deltas 0
          ⟨[], "", [.assistant_start mid], false⟩).events false) := by
  refine ⟨?_, ?_, ?_⟩
  · intro fuel idx st h
    exact process_iters_precancelled toolExec streams co fuel idx st h
  · intro flags mid pre d rest j acc hpre hd
    exact consume_chunks_cancel_point flags mid pre d rest j acc hpre hd
  · intro deltas stream_error sflags tflags msgs mid h
    exact llm_iteration_cancelled toolExec deltas stream_error sflags tflags msgs mid h

/-- Witness for C4: the pre-check stop, the mid-stream stop and the
no-append property at concrete inputs. -/
theorem cancellation_promptness_witness :
    process_iters const_tool_runner one_tool_call_stream cancel_before_first_tool
        1 1 ⟨[], [], 0, 1, 0⟩ =
      (⟨[], [] ++ [Event.assistant_end 0], 0, 1, 0⟩, Outcome.cancelled) ∧
    consume_chunks (fun _ => true) 0 ([] ++ ⟨[], "x"⟩ :: []) 0 ⟨[], "", [], false⟩ =
      { consume_chunks (fun _ => true) 0 [] 0 ⟨[], "", [], false⟩ with cancelled := true } ∧
    llm_iteration const_tool_runner [⟨[], "x"⟩] none (fun _ => true) (fun _ => false)
        [] 0 =
      .ret [] (consume_chunks (fun _ => true) 0 [⟨[], "x"⟩] 0
        ⟨[], "", [.assistant_start 0], false⟩).events false := by
  refine ⟨?_, ?_, ?_⟩
  · exact (cancellation_promptness const_tool_runner one_tool_call_stream
      cancel_before_first_tool).1 0 1 ⟨[], [], 0, 1, 0⟩ rfl
  · exact (cancellation_promptness const_tool_runner one_tool_call_stream
      cancel_before_first_tool).2.1 (fun _ => true) 0 [] ⟨[], "x"⟩ [] 0
      ⟨[], "", [], false⟩ (fun i hi => absurd hi (by simp)) rfl
  · exact (cancellation_promptness const_tool_runner one_tool_call_stream
      cancel_before_first_tool).2.2 [⟨[], "x"⟩] none (fun _ => true) (fun _ => false)
      [] 0 rfl

/-- C5 (amended): on every turn exit the session's cancel flag is reset to
false and its current message id cleared, whatever value the environment
last wrote and whatever the outcome; for the completed and cancelled
outcomes the last emitted event is a turn-end signal (`assistant_end`) for
the last active message id; when the LLM call or stream raises, the last
emitted event is an `error` event instead — no turn-end is emitted for the
error outcome. -/
theorem turn_cleanup_and_final_signal (toolExec : String → String → String)
    (streams : Nat → LLMCall) (co : CancelReads) (env_flag : Bool) (M : Nat)
    (msgs0 : List Message) (ui : String) (_hM : 1 ≤ M) :
    (process_streaming toolExec streams co env_flag M msgs0 ui).session.cancel_flag
        = false ∧
    (process_streaming toolExec streams co env_flag M msgs0 ui).session.current_message_id
        = none ∧
    ((∀ m, (process_streaming toolExec streams co env_flag M msgs0 ui).outcome ≠
        .errored m) →
      (process_streaming toolExec streams co env_flag M msgs0 ui).events.getLast? =
        some (.assistant_end
          (process_streaming toolExec streams co env_flag M msgs0 ui).final_mid)) ∧
    (∀ m, (process_streaming toolExec streams co env_flag M msgs0 ui).outcome =
        .errored m →
      ∃ s, (process_streaming toolExec streams co env_flag M msgs0 ui).events.getLast? =
        some (.error_event s)) := by
  refine ⟨rfl, rfl, ?_, ?_⟩
  · simp only [process_streaming]
    exact (process_iters_last_event toolExec streams co M 0 _).1
  · simp only [process_streaming]
    exact (process_iters_last_event toolExec streams co M 0 _).2

/-- Witness for C5: a completed one-iteration turn ends with a turn-end
signal for its message id. -/
theorem turn_cleanup_and_final_signal_witness :
    (process_streaming const_tool_runner (fun _ => LLMCall.stream [] none) no_cancel
      true 1 [] "hi").events.getLast? =
      some (.assistant_end (process_streaming const_tool_runner
        (fun _ => LLMCall.stream [] none) no_cancel true 1 [] "hi").final_mid) :=
  (turn_cleanup_and_final_signal const_tool_runner (fun _ => LLMCall.stream [] none)
    no_cancel true 1 [] "hi" (by omega)).2.2.1
    (by
      intro m h
      have hc : (process_streaming const_tool_runner (fun _ => LLMCall.stream [] none)
          no_cancel true 1 [] "hi").outcome = Outcome.completed := rfl
      rw [hc] at h
      exact Outcome.noConfusion h)

/-- C5 counterexample: a turn whose first LLM call raises emits only an
`error` event — no turn-end signal (`assistant_end`) is emitted at all —
although the session cleanup still runs. -/
theorem stream_error_turn_end_missing :
    (process_streaming const_tool_runner (fun _ => LLMCall.fails "boom") no_cancel
        false 3 [] "hi").events =
      [Event.error_event ("处理消息时出错: " ++ "boom")] ∧
    (∀ mid, Event.assistant_end mid ∉
      (process_streaming const_tool_runner (fun _ => LLMCall.fails "boom") no_cancel
        false 3 [] "hi").events) ∧
    (process_streaming const_tool_runner (fun _ => LLMCall.fails "boom") no_cancel
      false 3 [] "hi").outcome = Outcome.errored "boom" ∧
    (process_streaming const_tool_runner (fun _ => LLMCall.fails "boom") no_cancel
      false 3 [] "hi").session.cancel_flag = false := by
  refine ⟨rfl, ?_, rfl, rfl⟩
  intro mid h
  have he : (process_streaming const_tool_runner (fun _ => LLMCall.fails "boom")
      no_cancel false 3 [] "hi").events =
      [Event.error_event ("处理消息时出错: " ++ "boom")] := rfl
  rw [he] at h
  simp at h

end HelloAgent
